import Mathlib

/-! wordenc: an 11-bit word codec.

A shallow embedding of the `codec` package of `himuglamuh/wordenc`
(`encode.go`, `decode.go`, `errors.go`) together with proofs of the
properties its specification states.

Conventions of the embedding:

* a byte is a `Fin 256`; a byte slice is a `List Byte`; Go's `nil` slice is
  the empty list;
* a `uint64` is a `Nat` reduced modulo `2 ^ 64` wherever the source can wrap;
* a Go `int` read from the index map is an `Int`, converted with `uint64(v)`
  as the source does;
* a `(bytes, error)` result is a pair `List Byte × Option Err`, `none` being
  Go's `nil` error;
* a run-time panic (index out of range) is `none` of an `Option`.
-/

namespace Wordenc

/-! ## Data model -/

/-- One octet. -/
abbrev Byte := Fin 256

/-- Conversion `byte(x)` of an unsigned integer: the low eight bits. -/
def toByte (x : Nat) : Byte := ⟨x % 256, Nat.mod_lt _ (by decide)⟩

/-- Wrap-around of a value stored in a `uint64`. -/
def u64 (x : Nat) : Nat := x % 2 ^ 64

/-- Conversion `uint64(v)` of a Go `int`. -/
def uint64OfInt (v : Int) : Nat := (v % (2 ^ 64 : Int)).toNat

/-- Constant `bitsPerWord` of `encode.go`. -/
def bitsPerWord : Nat := 11

/-- Constant `wordMask` of `encode.go`: `(1 << bitsPerWord) - 1`. -/
def wordMask : Nat := (1 <<< bitsPerWord) - 1

/-- Magic of `encode.go`: `"WENC"`, version, flags, poison, `'|'`. -/
def MagicV1 : List Byte := [0x57, 0x45, 0x4E, 0x43, 0x01, 0x00, 0xA7, 0x7C]

/-- Constant `binary.MaxVarintLen64` of the Go standard library. -/
def MaxVarintLen64 : Nat := 10

/-- Sentinel errors of `errors.go`; `BadWord` carries the quoted token that
`Decode` wraps with `fmt.Errorf("%w: %q", ErrBadWord, w)`, and `UnknownMode`
is the message returned by the `default` branch of `Decode`. -/
inductive Err where
  | BadWord (w : String)
  | BadPadding
  | BadHeader
  | Truncated
  | AbsurdLength
  | UnknownMode
  deriving DecidableEq, Repr

/-- Decode mode, an `int` in the source. -/
abbrev DecodeMode := Int

/-- Mode `DecodeAuto` (`iota` = 0). -/
def DecodeAuto : DecodeMode := 0

/-- Mode `DecodeRaw`. -/
def DecodeRaw : DecodeMode := 1

/-- Mode `DecodeFramed`. -/
def DecodeFramed : DecodeMode := 2

/-- Struct `Encoder` of `encode.go`. -/
structure Encoder where
  Words : List String
  Framed : Bool

/-- Struct `Decoder` of `decode.go`; the map `Index` is a partial function. -/
structure Decoder where
  Index : String → Option Int
  MaxLen : Nat
  AllowPartial : Bool
  StrictPad : Bool

/-- Constructor `NewEncoder`: rejects every list that has not 2048 words. -/
def NewEncoder (words : List String) (framed : Bool) : Option Encoder :=
  if words.length ≠ 2048 then none else some { Words := words, Framed := framed }

/-- Constructor `NewDecoder`: 256 MiB limit, partial results, lax padding. -/
def NewDecoder (index : String → Option Int) : Decoder :=
  { Index := index, MaxLen := 256 <<< 20, AllowPartial := true, StrictPad := false }

/-! ## Bit packer (`packToIndices`) -/

/-- Inner loop `for accN >= bitsPerWord` of `packToIndices`; the first
argument bounds the number of iterations and is always passed `accN`, which
each iteration lowers by eleven. Returns the new `accN` and `out`. -/
def packDrain : Nat → Nat → Nat → List Nat → Nat × List Nat
  | 0, _, accN, out => (accN, out)
  | fuel + 1, acc, accN, out =>
    if bitsPerWord ≤ accN then
      packDrain fuel acc (accN - bitsPerWord)
        (out ++ [(acc >>> (accN - bitsPerWord)) &&& wordMask])
    else (accN, out)

/-- Loop state of `packToIndices`: `acc`, `accN`, `out`. -/
structure PackState where
  acc : Nat
  accN : Nat
  out : List Nat

/-- Body of `for _, b := range blob` in `packToIndices`. The accumulator is
a `uint64` that is shifted without ever being masked, hence the wrap. -/
def packStep (s : PackState) (b : Byte) : PackState :=
  let acc := u64 ((s.acc <<< 8) ||| b.val)
  let r := packDrain (s.accN + 8) acc (s.accN + 8) s.out
  { acc := acc, accN := r.1, out := r.2 }

/-- Function `packToIndices` of `encode.go`. -/
def packToIndices (blob : List Byte) : List Nat :=
  let s := blob.foldl packStep { acc := 0, accN := 0, out := [] }
  if 0 < s.accN then
    s.out ++ [u64 (s.acc <<< (bitsPerWord - s.accN)) &&& wordMask]
  else s.out

/-! ## Bit unpacker (`unpackFromIndices`) -/

/-- Loop state of `unpackFromIndices`: `acc`, `accN`, `out`. -/
structure UnpackState where
  acc : Nat
  accN : Nat
  out : List Byte

/-- Inner loop `for accN >= 8` of `unpackFromIndices`; the first argument
bounds the number of iterations and is always passed `accN`. -/
def unpackDrain : Nat → UnpackState → UnpackState
  | 0, s => s
  | fuel + 1, s =>
    if 8 ≤ s.accN then
      unpackDrain fuel
        { acc := s.acc &&& ((1 <<< (s.accN - 8)) - 1)
          accN := s.accN - 8
          out := s.out ++ [toByte (s.acc >>> (s.accN - 8))] }
    else s

/-- Body of `for _, v := range indices` in `unpackFromIndices`. -/
def unpackStep (s : UnpackState) (v : Int) : UnpackState :=
  unpackDrain (s.accN + bitsPerWord)
    { acc := u64 ((s.acc <<< bitsPerWord) ||| uint64OfInt v)
      accN := s.accN + bitsPerWord
      out := s.out }

/-- Function `unpackFromIndices` of `decode.go`: the bytes and the
"padding was clean" flag. -/
def unpackFromIndices (indices : List Int) : List Byte × Bool :=
  let s := indices.foldl unpackStep { acc := 0, accN := 0, out := [] }
  if 0 < s.accN ∧ s.acc &&& ((1 <<< s.accN) - 1) ≠ 0 then (s.out, false)
  else (s.out, true)

/-! ## Varints of the Go standard library (`encoding/binary`) -/

/-- Loop of `binary.PutUvarint`: `for x >= 0x80 { buf[i] = byte(x) | 0x80;
x >>= 7; i++ }` followed by `buf[i] = byte(x)`. The first argument bounds the
iterations by the capacity of the buffer; the bytes written are returned. -/
def putUvarintLoop : Nat → Nat → List Byte
  | 0, x => [toByte x]
  | fuel + 1, x =>
    if 0x80 ≤ x then toByte ((x % 256) ||| 0x80) :: putUvarintLoop fuel (x >>> 7)
    else [toByte x]

/-- Go standard library `binary.PutUvarint` on a `[MaxVarintLen64]byte`
buffer: the slice `lenBuf[:n]` of the bytes written for the `uint64` `x`. -/
def PutUvarint (x : Nat) : List Byte := putUvarintLoop (MaxVarintLen64 - 1) x

/-- Loop `for i := 0; i < MaxVarintLen64; i++` of `binary.ReadUvarint`, by
recursion on the iterations left; arguments `i`, `x`, `s` are the loop
variables and the list is what the reader has not consumed yet. An error
(`io.EOF`, `io.ErrUnexpectedEOF` or overflow) is `none`; success returns the
value and the unread rest of the reader. -/
def readUvarintLoop : Nat → Nat → Nat → Nat → List Byte → Option (Nat × List Byte)
  | 0, _, _, _, _ => none
  | left + 1, i, x, s, r =>
    match r with
    | [] => none
    | b :: rest =>
      if b.val < 0x80 then
        if i = MaxVarintLen64 - 1 ∧ 1 < b.val then none
        else some (x ||| u64 (b.val <<< s), rest)
      else readUvarintLoop left (i + 1) (x ||| u64 ((b.val &&& 0x7f) <<< s)) (s + 7) rest

/-- Go standard library `binary.ReadUvarint` on a `bytes.Reader`. -/
def ReadUvarint (r : List Byte) : Option (Nat × List Byte) :=
  readUvarintLoop MaxVarintLen64 0 0 0 r

/-! ## Encoder -/

/-- Loop `for i, v := range indices { out[i] = e.Words[v] }` of `Encode`;
`none` is the index-out-of-range panic. -/
def lookupIndices (words : List String) : List Nat → Option (List String)
  | [] => some []
  | v :: vs =>
    match words.get? v with
    | none => none
    | some w =>
      match lookupIndices words vs with
      | none => none
      | some ws => some (w :: ws)

/-- The blob that `Encode` packs: `MAGIC + uvarint(len) + payload` when
framed, the data itself otherwise. -/
def encodeBlob (framed : Bool) (data : List Byte) : List Byte :=
  if framed then MagicV1 ++ PutUvarint (u64 data.length) ++ data else data

/-- Method `Encoder.Encode` of `encode.go`. -/
def Encode (e : Encoder) (data : List Byte) : Option (List String) :=
  lookupIndices e.Words (packToIndices (encodeBlob e.Framed data))

/-! ## Decoder -/

/-- Function `hasMagic` of `decode.go`. -/
def hasMagic (b : List Byte) : Bool :=
  decide (MagicV1.length ≤ b.length) && decide (b.take 8 = MagicV1)

/-- Method `Decoder.decodeFramed` of `decode.go`. -/
def decodeFramed (d : Decoder) (b : List Byte) : List Byte × Option Err :=
  if !hasMagic b then ([], some Err.BadHeader)
  else
    match ReadUvarint (b.drop 8) with
    | none => ([], some Err.BadHeader)
    | some (L, r) =>
      if 0 < d.MaxLen ∧ d.MaxLen < L then ([], some Err.AbsurdLength)
      else
        let remain := r.length
        if remain < L then
          if !d.AllowPartial then ([], some Err.Truncated)
          else (r.take remain, some Err.Truncated)
        else (r.take L, none)

/-- Loop `for _, w := range words` of `Decode`: the indices, or the first
word missing from the index. -/
def lookupWords (index : String → Option Int) : List String → Except String (List Int)
  | [] => .ok []
  | w :: ws =>
    match index w with
    | none => .error w
    | some v =>
      match lookupWords index ws with
      | .error e => .error e
      | .ok vs => .ok (v :: vs)

/-- The part of `Decode` that follows the word lookup: padding check and
dispatch on the mode. -/
def decodeIndices (d : Decoder) (indices : List Int) (mode : DecodeMode) :
    List Byte × Option Err :=
  let rawBytes := (unpackFromIndices indices).1
  let padOK := (unpackFromIndices indices).2
  if d.StrictPad && !padOK then ([], some Err.BadPadding)
  else if mode = DecodeRaw then (rawBytes, none)
  else if mode = DecodeFramed then decodeFramed d rawBytes
  else if mode = DecodeAuto then
    if hasMagic rawBytes then
      let r := decodeFramed d rawBytes
      if r.2 = none then (r.1, none)
      else if r.2 = some Err.BadHeader ∨ r.2 = some Err.AbsurdLength then (rawBytes, none)
      else if r.2 = some Err.Truncated ∧ d.AllowPartial = true then (r.1, none)
      else (rawBytes, none)
    else (rawBytes, none)
  else ([], some Err.UnknownMode)

/-- Method `Decoder.Decode` of `decode.go`. -/
def Decode (d : Decoder) (words : List String) (mode : DecodeMode) :
    List Byte × Option Err :=
  match lookupWords d.Index words with
  | .error w => ([], some (Err.BadWord w))
  | .ok indices => decodeIndices d indices mode

/-! ## Specification vocabulary

Positional values and loop invariants used to state what the loops compute. -/

/-- Big-endian value of a list of digits in base `2 ^ w`. -/
def bval (w : Nat) (xs : List Nat) : Nat := xs.foldl (fun a x => a * 2 ^ w + x) 0

/-- Big-endian value of a byte string. -/
def bytesVal (bs : List Byte) : Nat := bval 8 (bs.map Fin.val)

/-- Invariant of the outer loop of `packToIndices` after the bytes `bs`. -/
structure PackInv (bs : List Byte) (s : PackState) : Prop where
  acc_eq : s.acc = bytesVal bs % 2 ^ 64
  accN_lt : s.accN < 11
  len_eq : s.out.length * 11 + s.accN = 8 * bs.length
  val_eq : bval 11 s.out = bytesVal bs / 2 ^ s.accN
  digits : ∀ x ∈ s.out, x < 2048

/-- Number of zero bits that `packToIndices` appends to a blob of `n` bytes. -/
def padBits (n : Nat) : Nat := (11 - (8 * n) % 11) % 11

/-- Vocabulary invariant of the data model: exactly 2048 words, and the index
maps every word back to its own position (so no word occurs twice). -/
structure IsVocabulary (words : List String) (index : String → Option Int) : Prop where
  size : words.length = 2048
  back : ∀ (i : Nat) (h : i < words.length), index (words.get ⟨i, h⟩) = some (i : Int)

/-- Reverse lookup derived from a word list: the position of a word. -/
def reverseIndex (words : List String) : String → Option Int :=
  fun w => if w ∈ words then some (words.indexOf w : Int) else none

/-- A concrete vocabulary of 2048 distinct tokens: token number `i` is the
letter `a` repeated `i + 1` times. -/
@[irreducible] def demoWords : List String :=
  (List.range 2048).map (fun i => String.mk (List.replicate (i + 1) 'a'))

/-- Reverse lookup of `demoWords`. -/
@[irreducible] def demoIndex : String → Option Int := reverseIndex demoWords

/-- The words that `Encode` emits when no lookup is out of range. -/
def encodedWords (words : List String) (framed : Bool) (data : List Byte) : List String :=
  (packToIndices (encodeBlob framed data)).map (fun v => words.getD v "")

/-- Position of the first byte of a reader that has no continuation bit
(a byte below `0x80`), if the reader has one. -/
def varintEnd : List Byte → Option Nat
  | [] => none
  | b :: r => if b.val < 0x80 then some 0 else (varintEnd r).map (fun k => k + 1)

/-- Readable unsigned varint, after the words of the specification: the
input does not end before a byte without continuation bit, and the value
does not overflow 64 bits, that is, this byte is one of the first nine, or
it is the tenth and holds at most the one bit that is left. -/
def specReadableUvarint (r : List Byte) : Bool :=
  match varintEnd r with
  | none => false
  | some k => decide (k < 9) || (decide (k = 9) && decide ((r.getD k 0).val ≤ 1))

/-- Go standard library `unicode.IsSpace`: the white space of Latin-1 and
the Unicode characters with the property White_Space. -/
def isSpace (c : Char) : Bool :=
  decide (c.toNat = 0x09 ∨ c.toNat = 0x0A ∨ c.toNat = 0x0B ∨ c.toNat = 0x0C ∨
    c.toNat = 0x0D ∨ c.toNat = 0x20 ∨ c.toNat = 0x85 ∨ c.toNat = 0xA0 ∨
    c.toNat = 0x1680 ∨ (0x2000 ≤ c.toNat ∧ c.toNat ≤ 0x200A) ∨ c.toNat = 0x2028 ∨
    c.toNat = 0x2029 ∨ c.toNat = 0x202F ∨ c.toNat = 0x205F ∨ c.toNat = 0x3000)

/-- Go standard library `strings.TrimSpace`: the string without its leading
and trailing white space. -/
def TrimSpace (s : String) : String :=
  String.mk (((s.data.dropWhile isSpace).reverse.dropWhile isSpace).reverse)

/-- Constant `bufio.MaxScanTokenSize` of the Go standard library: the size
of the largest buffer of a `bufio.Scanner`. -/
def MaxScanTokenSize : Nat := 64 * 1024

/-- Function `dropCR` of the Go standard library (`bufio`): a line without
its one trailing carriage return, if it has one. -/
def dropCR (s : String) : String :=
  if s.data.getLast? = some (Char.ofNat 0x0D) then String.mk s.data.dropLast else s

/-- Go standard library `bufio.Scanner` with its default buffer and line
splitter, on the lines of the input (the text between line feeds, a carriage
return included): the tokens that `sc.Scan()` and `sc.Text()` yield, and
whether the scanner stopped with an error. A line and its line feed must fit
the buffer: at a line of `MaxScanTokenSize` bytes or more `sc.Scan()` returns
false and `sc.Err()` is `bufio.ErrTooLong`. -/
def scanLines : List String → List String × Bool
  | [] => ([], false)
  | l :: ls =>
    if MaxScanTokenSize ≤ l.utf8ByteSize then ([], true)
    else (dropCR l :: (scanLines ls).1, (scanLines ls).2)

/-- Body of the loop `for sc.Scan()` of `LoadBIP39English` over the tokens
that the scanner yields: every token is trimmed and blank ones are
skipped. -/
def scanWords : List String → List String
  | [] => []
  | l :: ls => if TrimSpace l = "" then scanWords ls else TrimSpace l :: scanWords ls

/-- Loop `for i, w := range words` of `LoadBIP39English`: `none` is the
duplicate-word error, otherwise the map with `index[w] = i` added for every
word. -/
def buildIndex : List String → Nat → (String → Option Int) → Option (String → Option Int)
  | [], _, index => some index
  | w :: ws, i, index =>
    if (index w).isSome then none
    else buildIndex ws (i + 1) (fun x => if x = w then some (i : Int) else index x)

/-- Function `LoadBIP39English` of `wordlist.go`, as a function of the lines
of the embedded word list (the file itself is not part of the sources);
`none` is any of its three errors: the error of the scanner, a number of
words other than 2048, a duplicate word. -/
def LoadBIP39English (lines : List String) : Option (List String × (String → Option Int)) :=
  let sc := scanLines lines
  let words := scanWords sc.1
  if sc.2 then none
  else if words.length ≠ 2048 then none
  else
    match buildIndex words 0 (fun _ => none) with
    | none => none
    | some index => some (words, index)

/-- White space after the specification of the Go standard library: the
code points for which `unicode.IsSpace` holds. -/
def specWhiteSpace : List Nat :=
  [0x09, 0x0A, 0x0B, 0x0C, 0x0D, 0x20, 0x85, 0xA0, 0x1680, 0x2000, 0x2001, 0x2002, 0x2003,
   0x2004, 0x2005, 0x2006, 0x2007, 0x2008, 0x2009, 0x200A, 0x2028, 0x2029, 0x202F, 0x205F,
   0x3000]

/-- A line trimmed of white space, after the words of the specification:
the line without the white space at its start and at its end. -/
def specTrim (l : String) : String :=
  String.mk (List.rdropWhile (fun c => decide (c.toNat ∈ specWhiteSpace))
    (l.data.dropWhile (fun c => decide (c.toNat ∈ specWhiteSpace))))

/-- The words of a word list, after the words of the specification: the
lines trimmed of white space, the blank ones dropped. -/
def specWords (lines : List String) : List String :=
  (lines.map specTrim).filter (fun w => decide (w ≠ ""))

/-- Lines of a concrete word list with white space around the words: word
`i` of `demoWords` between a space and a tab on the left and a no-break space
and a carriage return on the right, followed by an empty line and a line of
white space only. -/
def demoLines : List String :=
  (List.range 2048).map (fun i => String.mk
    ([Char.ofNat 0x20, Char.ofNat 0x09] ++ List.replicate (i + 1) 'a'
      ++ [Char.ofNat 0xA0, Char.ofNat 0x0D]))
  ++ ["", String.mk [Char.ofNat 0x20, Char.ofNat 0x3000, Char.ofNat 0x0D]]

/-- Bit number `j` of the big-endian bitstream of a blob (bit 0 is the most
significant bit of the first byte), extended with zero bits past its end. -/
def streamBit (blob : List Byte) (j : Nat) : Nat :=
  match blob.get? (j / 8) with
  | some b => (b.val >>> (7 - j % 8)) % 2
  | none => 0

/-- The integer formed by the `k` bits `[start, start + k)` of the
zero-extended bitstream of a blob, the first bit being the most significant. -/
def bitsValue (blob : List Byte) (start : Nat) : Nat → Nat
  | 0 => 0
  | k + 1 => 2 * bitsValue blob start k + streamBit blob (start + k)

/-- Reference definition of the bit packer, after the words of the
specification: `ceil(8n/11)` indices, the `i`-th being the integer formed by
the bits `[11i, 11i + 11)` of the zero-extended big-endian bitstream. -/
def packRef (blob : List Byte) : List Nat :=
  (List.range ((8 * blob.length + 10) / 11)).map (fun i => bitsValue blob (11 * i) 11)

/-! ## Theorems -/

/-! ## Positional values -/
theorem bval_nil (w : Nat) : bval w [] = 0 := rfl

theorem bval_snoc (w : Nat) (xs : List Nat) (x : Nat) :
    bval w (xs ++ [x]) = bval w xs * 2 ^ w + x := by
  simp [bval, List.foldl_append]

theorem bytesVal_nil : bytesVal [] = 0 := rfl

theorem bytesVal_snoc (bs : List Byte) (b : Byte) :
    bytesVal (bs ++ [b]) = bytesVal bs * 256 + b.val := by
  simp [bytesVal, bval_snoc]

theorem bval_inj (w : Nat) :
    ∀ xs ys : List Nat, xs.length = ys.length → (∀ x ∈ xs, x < 2 ^ w) →
      (∀ y ∈ ys, y < 2 ^ w) → bval w xs = bval w ys → xs = ys := by
  intro xs
  induction xs using List.reverseRecOn with
  | nil =>
    intro ys hl _ _ _
    exact (List.length_eq_zero.mp hl.symm).symm
  | append_singleton xs x ih =>
    intro ys hl hx hy hv
    rcases List.eq_nil_or_concat ys with hnil | ⟨ys', y, rfl⟩
    · subst hnil; simp at hl
    · simp only [List.concat_eq_append] at hl hy hv ⊢
      rw [bval_snoc, bval_snoc] at hv
      have hxlt : x < 2 ^ w := hx x (by simp)
      have hylt : y < 2 ^ w := hy y (by simp)
      have hpos : 0 < 2 ^ w := Nat.two_pow_pos w
      have h1 : bval w xs = bval w ys' := by
        have key : ∀ a d, d < 2 ^ w → (a * 2 ^ w + d) / 2 ^ w = a := by
          intro a d hd
          rw [Nat.mul_comm, Nat.mul_add_div hpos, Nat.div_eq_of_lt hd, Nat.add_zero]
        rw [← key (bval w xs) x hxlt, hv, key _ _ hylt]
      have h2 : x = y := by
        rw [h1] at hv
        exact Nat.add_left_cancel hv
      have hl' : xs.length = ys'.length := by simpa using hl
      have := ih ys' hl' (fun a ha => hx a (by simp [ha])) (fun a ha => hy a (by simp [ha])) h1
      rw [this, h2]

theorem bytesVal_inj (xs ys : List Byte) (hl : xs.length = ys.length)
    (hv : bytesVal xs = bytesVal ys) : xs = ys := by
  have h := bval_inj 8 (xs.map Fin.val) (ys.map Fin.val) (by simpa using hl)
    (by intro x hx; rcases List.mem_map.mp hx with ⟨b, _, rfl⟩; exact b.isLt)
    (by intro x hx; rcases List.mem_map.mp hx with ⟨b, _, rfl⟩; exact b.isLt) hv
  exact (List.map_injective_iff.mpr Fin.val_injective) h

/-! ## The packer computes the big-endian bitstream -/

theorem packDrain_done (fuel acc accN : Nat) (out : List Nat) (h : accN < 11) :
    packDrain fuel acc accN out = (accN, out) := by
  cases fuel with
  | zero => rfl
  | succ n => simp [packDrain, bitsPerWord, Nat.not_le.mpr h]

theorem packDrain_small (acc accN : Nat) (out : List Nat) (h : accN < 11) :
    packDrain (accN + 8) acc (accN + 8) out =
      if 3 ≤ accN then (accN - 3, out ++ [(acc >>> (accN - 3)) &&& wordMask])
      else (accN + 8, out) := by
  show packDrain ((accN + 7) + 1) acc (accN + 8) out = _
  by_cases h3 : 3 ≤ accN
  · have e : accN + 8 - 11 = accN - 3 := by omega
    rw [packDrain, if_pos (by simp only [bitsPerWord]; omega), if_pos h3]
    simp only [bitsPerWord, e]
    exact packDrain_done _ _ _ _ (by omega)
  · rw [packDrain, if_neg (by simp only [bitsPerWord]; omega), if_neg h3]

theorem shl8_or_byte (a : Nat) (b : Byte) : (a <<< 8) ||| b.val = a * 256 + b.val := by
  have hb : b.val < 2 ^ 8 := b.isLt
  rw [Nat.shiftLeft_eq, Nat.mul_comm a, Nat.mul_add_lt_is_or hb]

theorem mod64_div_mod11 (x k : Nat) (hk : k + 11 ≤ 64) :
    (x % 2 ^ 64 / 2 ^ k) % 2 ^ 11 = (x / 2 ^ k) % 2 ^ 11 := by
  have e : (2 : Nat) ^ 64 = 2 ^ k * 2 ^ (64 - k) := by
    rw [← Nat.pow_add]; congr 1; omega
  rw [e, Nat.mod_mul_right_div_self]
  apply Nat.mod_mod_of_dvd
  exact Nat.pow_dvd_pow 2 (by omega)

theorem packInv_init : PackInv [] { acc := 0, accN := 0, out := [] } :=
  ⟨rfl, by decide, rfl, rfl, by simp⟩

theorem packInv_step (bs : List Byte) (s : PackState) (b : Byte) (h : PackInv bs s) :
    PackInv (bs ++ [b]) (packStep s b) := by
  obtain ⟨hacc, hN, hlen, hval, hdig⟩ := h
  have hb : b.val < 256 := b.isLt
  have hacc' : u64 ((s.acc <<< 8) ||| b.val) = bytesVal (bs ++ [b]) % 2 ^ 64 := by
    rw [shl8_or_byte, bytesVal_snoc, hacc, u64]
    omega
  by_cases h3 : 3 ≤ s.accN
  · have hstep : packStep s b =
        { acc := u64 ((s.acc <<< 8) ||| b.val), accN := s.accN - 3,
          out := s.out ++ [(u64 ((s.acc <<< 8) ||| b.val) >>> (s.accN - 3)) &&& wordMask] } := by
      simp [packStep, packDrain_small _ _ _ hN, h3]
    have hv : (u64 ((s.acc <<< 8) ||| b.val) >>> (s.accN - 3)) &&& wordMask
        = (bytesVal (bs ++ [b]) / 2 ^ (s.accN - 3)) % 2 ^ 11 := by
      rw [hacc', Nat.shiftRight_eq_div_pow]
      have : wordMask = 2 ^ 11 - 1 := by decide
      rw [this, Nat.and_pow_two_sub_one_eq_mod, mod64_div_mod11 _ _ (by omega)]
    rw [hstep]
    refine ⟨hacc', by simp only; omega, by simp only [List.length_append, List.length_singleton]; omega, ?_, ?_⟩
    · simp only
      rw [bval_snoc, hv, hval]
      have e1 : bytesVal bs / 2 ^ s.accN = bytesVal (bs ++ [b]) / 2 ^ (s.accN - 3) / 2 ^ 11 := by
        rw [Nat.div_div_eq_div_mul, ← Nat.pow_add, bytesVal_snoc]
        have e2 : s.accN - 3 + 11 = 8 + s.accN := by omega
        have e3 : (bytesVal bs * 256 + b.val) / 2 ^ 8 = bytesVal bs := by omega
        rw [e2, Nat.pow_add, ← Nat.div_div_eq_div_mul, e3]
      rw [e1]
      exact Nat.div_add_mod' _ _
    · intro x hx
      simp only at hx
      rcases List.mem_append.mp hx with hx | hx
      · exact hdig x hx
      · rw [List.mem_singleton] at hx
        rw [hx, hv]
        exact Nat.mod_lt _ (by decide)
  · have hstep : packStep s b =
        { acc := u64 ((s.acc <<< 8) ||| b.val), accN := s.accN + 8, out := s.out } := by
      simp [packStep, packDrain_small _ _ _ hN, h3]
    rw [hstep]
    refine ⟨hacc', by simp only; omega, by simp only [List.length_append, List.length_singleton]; omega, ?_, hdig⟩
    simp only
    have e3 : (bytesVal bs * 256 + b.val) / 2 ^ 8 = bytesVal bs := by omega
    rw [hval, bytesVal_snoc, Nat.add_comm s.accN 8, Nat.pow_add, ← Nat.div_div_eq_div_mul, e3]

theorem packInv_foldl (bs rest : List Byte) (s : PackState) (h : PackInv bs s) :
    PackInv (bs ++ rest) (rest.foldl packStep s) := by
  induction rest generalizing bs s with
  | nil => simpa using h
  | cons b rest ih =>
    have := ih (bs ++ [b]) (packStep s b) (packInv_step bs s b h)
    simpa using this

/-- What `packToIndices` computes: `ceil(8n/11)` digits below 2048 whose
big-endian value is the value of the blob shifted left by the padding. -/
theorem packToIndices_spec (blob : List Byte) :
    (packToIndices blob).length * 11 = 8 * blob.length + padBits blob.length ∧
    bval 11 (packToIndices blob) = bytesVal blob * 2 ^ padBits blob.length ∧
    (∀ x ∈ packToIndices blob, x < 2048) := by
  have h := packInv_foldl [] blob _ packInv_init
  simp only [List.nil_append] at h
  obtain ⟨hacc, hN, hlen, hval, hdig⟩ := h
  unfold packToIndices
  simp only
  generalize blob.foldl packStep { acc := 0, accN := 0, out := [] } = s at *
  by_cases h0 : 0 < s.accN
  · rw [if_pos h0]
    have hp : padBits blob.length = 11 - s.accN := by unfold padBits; omega
    have hv : u64 (s.acc <<< (bitsPerWord - s.accN)) &&& wordMask
        = (bytesVal blob % 2 ^ s.accN) * 2 ^ (11 - s.accN) := by
      have : wordMask = 2 ^ 11 - 1 := by decide
      rw [this, Nat.and_pow_two_sub_one_eq_mod, u64, Nat.shiftLeft_eq, hacc]
      simp only [bitsPerWord]
      rw [Nat.mod_mod_of_dvd _ (Nat.pow_dvd_pow 2 (by omega : 11 ≤ 64))]
      rw [Nat.mul_mod, Nat.mod_mod_of_dvd _ (Nat.pow_dvd_pow 2 (by omega : 11 ≤ 64)), ← Nat.mul_mod]
      have e : (2 : Nat) ^ 11 = 2 ^ s.accN * 2 ^ (11 - s.accN) := by
        rw [← Nat.pow_add]; congr 1; omega
      rw [e, Nat.mul_mod_mul_right]
    refine ⟨by simp only [List.length_append, List.length_singleton]; omega, ?_, ?_⟩
    · rw [bval_snoc, hv, hval, hp]
      have e : (2 : Nat) ^ 11 = 2 ^ s.accN * 2 ^ (11 - s.accN) := by
        rw [← Nat.pow_add]; congr 1; omega
      rw [e, ← Nat.mul_assoc, ← Nat.add_mul, Nat.div_add_mod']
    · intro x hx
      rcases List.mem_append.mp hx with hx | hx
      · exact hdig x hx
      · rw [List.mem_singleton] at hx
        rw [hx, hv]
        have : bytesVal blob % 2 ^ s.accN < 2 ^ s.accN := Nat.mod_lt _ (Nat.two_pow_pos _)
        calc bytesVal blob % 2 ^ s.accN * 2 ^ (11 - s.accN)
            < 2 ^ s.accN * 2 ^ (11 - s.accN) := Nat.mul_lt_mul_of_pos_right this (Nat.two_pow_pos _)
          _ = 2048 := by rw [← Nat.pow_add]; have : s.accN + (11 - s.accN) = 11 := by omega
                         rw [this]
  · rw [if_neg h0]
    have hz : s.accN = 0 := by omega
    have hp : padBits blob.length = 0 := by unfold padBits; omega
    rw [hz] at hval
    refine ⟨by omega, ?_, hdig⟩
    rw [hval, hp]; simp

/-! ## The unpacker inverts the packer -/

theorem uint64OfInt_natCast (n : Nat) : uint64OfInt (n : Int) = n % 2 ^ 64 := by
  unfold uint64OfInt
  have : ((n : Int) % (2 ^ 64 : Int)) = ((n % 2 ^ 64 : Nat) : Int) := by
    push_cast; rfl
  rw [this, Int.toNat_ofNat]

theorem toByte_val_of_lt (x : Nat) (h : x < 256) : (toByte x).val = x := by
  simp [toByte, Nat.mod_eq_of_lt h]

/-- Counters of the unpacker: they do not depend on the digits read. -/
theorem unpackDrain_count (fuel : Nat) (s : UnpackState) (h : s.accN ≤ fuel) :
    (unpackDrain fuel s).accN < 8 ∧
    (unpackDrain fuel s).out.length * 8 + (unpackDrain fuel s).accN
      = s.out.length * 8 + s.accN := by
  induction fuel generalizing s with
  | zero =>
    have : s.accN = 0 := by omega
    simp [unpackDrain, this]
  | succ n ih =>
    by_cases h8 : 8 ≤ s.accN
    · rw [unpackDrain, if_pos h8]
      have := ih { acc := s.acc &&& ((1 <<< (s.accN - 8)) - 1), accN := s.accN - 8,
                   out := s.out ++ [toByte (s.acc >>> (s.accN - 8))] } (by simp only; omega)
      simp only [List.length_append, List.length_singleton] at this
      exact ⟨this.1, by omega⟩
    · rw [unpackDrain, if_neg h8]
      exact ⟨by omega, rfl⟩

theorem unpackDrain_prefix (fuel : Nat) (s : UnpackState) :
    s.out <+: (unpackDrain fuel s).out := by
  induction fuel generalizing s with
  | zero => exact List.prefix_refl _
  | succ n ih =>
    by_cases h8 : 8 ≤ s.accN
    · rw [unpackDrain, if_pos h8]
      exact (List.prefix_append s.out [toByte (s.acc >>> (s.accN - 8))]).trans
        (ih { acc := s.acc &&& ((1 <<< (s.accN - 8)) - 1), accN := s.accN - 8,
              out := s.out ++ [toByte (s.acc >>> (s.accN - 8))] })
    · rw [unpackDrain, if_neg h8]

theorem unpackDrain_value (fuel : Nat) (s : UnpackState) (hacc : s.acc < 2 ^ s.accN) :
    (unpackDrain fuel s).acc < 2 ^ (unpackDrain fuel s).accN ∧
    bytesVal (unpackDrain fuel s).out * 2 ^ (unpackDrain fuel s).accN + (unpackDrain fuel s).acc
      = bytesVal s.out * 2 ^ s.accN + s.acc := by
  induction fuel generalizing s with
  | zero => exact ⟨hacc, rfl⟩
  | succ n ih =>
    by_cases h8 : 8 ≤ s.accN
    · rw [unpackDrain, if_pos h8]
      have hm : s.acc &&& ((1 <<< (s.accN - 8)) - 1) = s.acc % 2 ^ (s.accN - 8) := by
        rw [Nat.shiftLeft_eq, Nat.one_mul, Nat.and_pow_two_sub_one_eq_mod]
      have hlt : s.acc / 2 ^ (s.accN - 8) < 256 := by
        rw [Nat.div_lt_iff_lt_mul (Nat.two_pow_pos _)]
        have : (256 : Nat) * 2 ^ (s.accN - 8) = 2 ^ s.accN := by
          rw [show (256 : Nat) = 2 ^ 8 from rfl, ← Nat.pow_add]; congr 1; omega
        rw [this]; exact hacc
      have := ih { acc := s.acc &&& ((1 <<< (s.accN - 8)) - 1), accN := s.accN - 8,
                   out := s.out ++ [toByte (s.acc >>> (s.accN - 8))] }
        (by simp only; rw [hm]; exact Nat.mod_lt _ (Nat.two_pow_pos _))
      refine ⟨this.1, this.2.trans ?_⟩
      simp only
      rw [hm, bytesVal_snoc, Nat.shiftRight_eq_div_pow, toByte_val_of_lt _ hlt]
      have e : (2 : Nat) ^ s.accN = 256 * 2 ^ (s.accN - 8) := by
        rw [show (256 : Nat) = 2 ^ 8 from rfl, ← Nat.pow_add]; congr 1; omega
      rw [e, Nat.add_mul, Nat.add_assoc, Nat.div_add_mod', Nat.mul_assoc]
    · rw [unpackDrain, if_neg h8]
      exact ⟨hacc, rfl⟩

/-- Counting invariant of the outer loop of `unpackFromIndices`. -/
theorem unpack_foldl_count (I : List Int) (s : UnpackState) (h : s.accN < 8) :
    (I.foldl unpackStep s).accN < 8 ∧
    (I.foldl unpackStep s).out.length * 8 + (I.foldl unpackStep s).accN
      = s.out.length * 8 + s.accN + 11 * I.length := by
  induction I generalizing s with
  | nil => exact ⟨h, rfl⟩
  | cons v I ih =>
    have hd := unpackDrain_count (s.accN + bitsPerWord)
      { acc := u64 ((s.acc <<< bitsPerWord) ||| uint64OfInt v),
        accN := s.accN + bitsPerWord, out := s.out } (Nat.le_refl _)
    have := ih (unpackStep s v) hd.1
    simp only [List.foldl_cons, List.length_cons]
    refine ⟨this.1, this.2.trans ?_⟩
    have e := hd.2
    simp only [bitsPerWord] at e
    unfold unpackStep
    simp only [bitsPerWord]
    omega

theorem unpack_foldl_prefix (I : List Int) (s : UnpackState) :
    s.out <+: (I.foldl unpackStep s).out := by
  induction I generalizing s with
  | nil => exact List.prefix_refl _
  | cons v I ih =>
    have h1 : s.out <+: (unpackStep s v).out :=
      unpackDrain_prefix (s.accN + bitsPerWord)
        { acc := u64 ((s.acc <<< bitsPerWord) ||| uint64OfInt v),
          accN := s.accN + bitsPerWord, out := s.out }
    exact h1.trans (ih (unpackStep s v))

/-- Value invariant of the outer loop of `unpackFromIndices` on digits
below 2048. -/
theorem unpack_foldl_value (I : List Nat) (hI : ∀ x ∈ I, x < 2048) (done : List Nat)
    (s : UnpackState) (hN : s.accN < 8) (hacc : s.acc < 2 ^ s.accN)
    (hv : bval 11 done = bytesVal s.out * 2 ^ s.accN + s.acc) :
    (((I.map Int.ofNat).foldl unpackStep s).acc
        < 2 ^ ((I.map Int.ofNat).foldl unpackStep s).accN) ∧
    bval 11 (done ++ I)
      = bytesVal ((I.map Int.ofNat).foldl unpackStep s).out
          * 2 ^ ((I.map Int.ofNat).foldl unpackStep s).accN
        + ((I.map Int.ofNat).foldl unpackStep s).acc := by
  induction I generalizing done s with
  | nil => simpa using ⟨hacc, hv⟩
  | cons v I ih =>
    have hvlt : v < 2048 := hI v (by simp)
    have hacc1 : (s.acc <<< bitsPerWord) ||| uint64OfInt (Int.ofNat v) = s.acc * 2048 + v := by
      have h1 : uint64OfInt (Int.ofNat v) = v := by
        rw [Int.ofNat_eq_coe, uint64OfInt_natCast]; omega
      have h2 : v < 2 ^ 11 := hvlt
      rw [h1, Nat.shiftLeft_eq, Nat.mul_comm s.acc]
      simp only [bitsPerWord]
      rw [← Nat.mul_add_lt_is_or h2]
      omega
    have hbound : s.acc * 2048 + v < 2 ^ (s.accN + 11) := by
      rw [Nat.pow_add]
      have : s.acc + 1 ≤ 2 ^ s.accN := hacc
      calc s.acc * 2048 + v < (s.acc + 1) * 2048 := by omega
        _ ≤ 2 ^ s.accN * 2 ^ 11 := Nat.mul_le_mul_right _ this
    have h64 : s.acc * 2048 + v < 2 ^ 64 :=
      lt_of_lt_of_le hbound (Nat.pow_le_pow_right (by decide) (by omega))
    have hu : u64 ((s.acc <<< bitsPerWord) ||| uint64OfInt (Int.ofNat v)) = s.acc * 2048 + v := by
      rw [hacc1, u64, Nat.mod_eq_of_lt h64]
    have hs : unpackStep s (Int.ofNat v) = unpackDrain (s.accN + 11)
        { acc := s.acc * 2048 + v, accN := s.accN + 11, out := s.out } := by
      unfold unpackStep
      rw [hu]; rfl
    have hd := unpackDrain_value (s.accN + 11)
      { acc := s.acc * 2048 + v, accN := s.accN + 11, out := s.out } hbound
    have hc := unpackDrain_count (s.accN + 11)
      { acc := s.acc * 2048 + v, accN := s.accN + 11, out := s.out } (Nat.le_refl _)
    rw [← hs] at hd hc
    have := ih (fun x hx => hI x (by simp [hx])) (done ++ [v]) (unpackStep s (Int.ofNat v))
      hc.1 hd.1 (by
        rw [bval_snoc, hv, hd.2]
        simp only
        rw [Nat.pow_add, Nat.add_mul, ← Nat.mul_assoc, Nat.add_assoc]
        rfl)
    simpa using this

theorem padBits_lt (n : Nat) : padBits n < 11 := Nat.mod_lt _ (by decide)

/-- Unpacking the packed blob gives the blob back, followed by one zero byte
when the packer padded with eight bits or more, and the padding is clean. -/
theorem unpack_pack (blob : List Byte) :
    unpackFromIndices ((packToIndices blob).map Int.ofNat)
      = (blob ++ List.replicate (padBits blob.length / 8) 0, true) := by
  obtain ⟨hlen, hval, hdig⟩ := packToIndices_spec blob
  have hc := unpack_foldl_count ((packToIndices blob).map Int.ofNat)
    { acc := 0, accN := 0, out := [] } (by decide)
  have hv := unpack_foldl_value (packToIndices blob) hdig []
    { acc := 0, accN := 0, out := [] } (by decide) (by decide) rfl
  have hp := padBits_lt blob.length
  unfold unpackFromIndices
  simp only
  generalize ((packToIndices blob).map Int.ofNat).foldl unpackStep
    { acc := 0, accN := 0, out := [] } = s at hc hv ⊢
  simp only [List.length_map, List.length_nil, List.nil_append] at hc hv
  generalize padBits blob.length = p at *
  have hr : s.accN = p % 8 := by omega
  have hl : s.out.length = blob.length + p / 8 := by omega
  have h2 : (2 : Nat) ^ p = 2 ^ (8 * (p / 8)) * 2 ^ s.accN := by
    rw [← Nat.pow_add]; congr 1; omega
  have heq : bytesVal blob * 2 ^ (8 * (p / 8)) * 2 ^ s.accN
      = bytesVal s.out * 2 ^ s.accN + s.acc := by
    rw [← hv.2, hval, h2, Nat.mul_assoc]
  have hacc0 : s.acc = 0 := by
    have h3 := congrArg (· % 2 ^ s.accN) heq
    simp only [Nat.mul_mod_left, Nat.mul_add_mod_of_lt hv.1] at h3
    exact h3.symm
  have hB : bytesVal s.out = bytesVal blob * 2 ^ (8 * (p / 8)) := by
    rw [hacc0, Nat.add_zero] at heq
    exact (Nat.eq_of_mul_eq_mul_right (Nat.two_pow_pos _) heq).symm
  have hZ : bytesVal (blob ++ List.replicate (p / 8) (0 : Byte))
      = bytesVal blob * 2 ^ (8 * (p / 8)) := by
    have : p / 8 = 0 ∨ p / 8 = 1 := by omega
    rcases this with h | h
    · rw [h]; simp
    · rw [h]
      show bytesVal (blob ++ [0]) = _
      rw [bytesVal_snoc]; simp
  have hout : s.out = blob ++ List.replicate (p / 8) (0 : Byte) :=
    bytesVal_inj _ _ (by simp [hl]) (hB.trans hZ.symm)
  simp [hacc0, hout]


/-! ## Varint round trip -/

theorem or_eq_add_of_lt (a y s : Nat) (h : a < 2 ^ s) : a ||| (y * 2 ^ s) = a + y * 2 ^ s := by
  rw [Nat.lor_comm, Nat.mul_comm, ← Nat.mul_add_lt_is_or h, Nat.add_comm]

theorem byte_or_0x80 : ∀ y : Fin 256,
    128 ≤ ((y.val ||| 0x80) % 256) ∧ (((y.val ||| 0x80) % 256) &&& 0x7f) = y.val % 128 := by
  set_option maxRecDepth 100000 in decide

theorem mul_pow_lt_64 (x s : Nat) (hs : s ≤ 64) (hx : x < 2 ^ (64 - s)) : x * 2 ^ s < 2 ^ 64 := by
  have e : (2 : Nat) ^ 64 = 2 ^ (64 - s) * 2 ^ s := by
    rw [← Nat.pow_add]; congr 1; omega
  rw [e]
  exact Nat.mul_lt_mul_of_pos_right hx (Nat.two_pow_pos _)

theorem readUvarintLoop_put (fuel : Nat) :
    ∀ (i acc s x : Nat) (rest : List Byte), i + fuel = 9 → s = 7 * i → acc < 2 ^ s →
      x < 2 ^ (64 - s) →
      readUvarintLoop (fuel + 1) i acc s (putUvarintLoop fuel x ++ rest)
        = some (acc + x * 2 ^ s, rest) := by
  induction fuel with
  | zero =>
    intro i acc s x rest hi hs hacc hx
    have hi9 : i = 9 := by omega
    subst hi9
    subst hs
    have hx2 : x < 2 := by simpa using hx
    have hb : (toByte x).val = x := toByte_val_of_lt x (by omega)
    have h64 : x * 2 ^ (7 * 9) < 2 ^ 64 := mul_pow_lt_64 x _ (by omega) hx
    simp only [putUvarintLoop, List.singleton_append, readUvarintLoop, hb]
    rw [if_pos (by omega), if_neg (by omega), Nat.shiftLeft_eq, u64, Nat.mod_eq_of_lt h64,
      or_eq_add_of_lt _ _ _ hacc]
  | succ n ih =>
    intro i acc s x rest hi hs hacc hx
    have hs56 : s ≤ 56 := by omega
    by_cases h80 : 0x80 ≤ x
    · have hbyte := byte_or_0x80 ⟨x % 256, Nat.mod_lt _ (by decide)⟩
      simp only at hbyte
      have hb : (toByte ((x % 256) ||| 0x80)).val = ((x % 256) ||| 0x80) % 256 := rfl
      rw [putUvarintLoop, if_pos h80, List.cons_append, readUvarintLoop]
      simp only [hb]
      rw [if_neg (by omega), hbyte.2]
      have hm : x % 256 % 128 = x % 128 := by omega
      have hlow : x % 128 * 2 ^ s < 2 ^ (s + 7) := by
        rw [Nat.pow_add, Nat.mul_comm]
        exact Nat.mul_lt_mul_of_pos_left (Nat.mod_lt _ (by decide)) (Nat.two_pow_pos _)
      have hlow64 : x % 128 * 2 ^ s < 2 ^ 64 :=
        lt_of_lt_of_le hlow (Nat.pow_le_pow_right (by decide) (by omega))
      have hacc' : acc + x % 128 * 2 ^ s < 2 ^ (s + 7) := by
        have h1 : x % 128 + 1 ≤ 128 := Nat.mod_lt _ (by decide)
        have h2 : (x % 128 + 1) * 2 ^ s ≤ 128 * 2 ^ s := Nat.mul_le_mul_right _ h1
        rw [Nat.pow_add, Nat.mul_comm (2 ^ s)]
        rw [Nat.add_mul] at h2
        omega
      rw [hm, Nat.shiftLeft_eq, u64, Nat.mod_eq_of_lt hlow64, or_eq_add_of_lt _ _ _ hacc]
      have hx' : x >>> 7 < 2 ^ (64 - (s + 7)) := by
        rw [Nat.shiftRight_eq_div_pow, Nat.div_lt_iff_lt_mul (Nat.two_pow_pos _), ← Nat.pow_add]
        have : 64 - (s + 7) + 7 = 64 - s := by omega
        rw [this]; exact hx
      rw [ih (i + 1) _ (s + 7) (x >>> 7) rest (by omega) (by omega) hacc' hx']
      congr 2
      have hdm : x % 128 + x / 2 ^ 7 * 2 ^ 7 = x := by
        have := Nat.mod_add_div' x 128
        simpa using this
      rw [Nat.shiftRight_eq_div_pow, Nat.pow_add]
      conv_rhs => rw [← hdm]
      ring
    · have hb : (toByte x).val = x := toByte_val_of_lt x (by omega)
      have h64 : x * 2 ^ s < 2 ^ 64 := mul_pow_lt_64 x _ (by omega) hx
      rw [putUvarintLoop, if_neg h80, List.singleton_append, readUvarintLoop]
      simp only [hb]
      rw [if_pos (by omega), if_neg (by simp only [MaxVarintLen64]; omega), Nat.shiftLeft_eq, u64,
        Nat.mod_eq_of_lt h64, or_eq_add_of_lt _ _ _ hacc]

/-- Reading back a written varint returns the value and leaves the rest of
the reader untouched. -/
theorem ReadUvarint_PutUvarint (x : Nat) (hx : x < 2 ^ 64) (rest : List Byte) :
    ReadUvarint (PutUvarint x ++ rest) = some (x, rest) := by
  have := readUvarintLoop_put 9 0 0 0 x rest (by omega) (by omega) (by decide) (by simpa using hx)
  simpa [ReadUvarint, PutUvarint, MaxVarintLen64] using this

theorem hasMagic_append (rest : List Byte) : hasMagic (MagicV1 ++ rest) = true := by
  simp [hasMagic, MagicV1]

theorem drop_magic_append (rest : List Byte) : (MagicV1 ++ rest).drop 8 = rest := by
  simp [MagicV1]

/-- Decision table of `decodeFramed` on a well-formed header. -/
theorem decodeFramed_frame (d : Decoder) (L : Nat) (hL : L < 2 ^ 64) (rest : List Byte) :
    decodeFramed d (MagicV1 ++ PutUvarint L ++ rest) =
      if 0 < d.MaxLen ∧ d.MaxLen < L then ([], some Err.AbsurdLength)
      else if rest.length < L then
        (if d.AllowPartial then (rest, some Err.Truncated) else ([], some Err.Truncated))
      else (rest.take L, none) := by
  unfold decodeFramed
  rw [List.append_assoc, hasMagic_append, drop_magic_append, ReadUvarint_PutUvarint L hL]
  simp only [Bool.not_true, Bool.false_eq_true, if_false, List.take_length]
  cases d.AllowPartial <;> simp

/-! ## Word lookup -/

theorem reverseIndex_isVocabulary (words : List String) (hn : words.Nodup)
    (hs : words.length = 2048) : IsVocabulary words (reverseIndex words) := by
  refine ⟨hs, ?_⟩
  intro i h
  have hmem : words.get ⟨i, h⟩ ∈ words := List.get_mem _ _ _
  unfold reverseIndex
  rw [if_pos hmem]
  have := List.indexOf_getElem hn i h
  simp only [List.get_eq_getElem]
  rw [this]

theorem demoWords_nodup : demoWords.Nodup := by
  unfold demoWords
  refine (List.nodup_range 2048).map ?_
  intro i j hij
  have := congrArg String.length hij
  simpa using this

theorem demoWords_length : demoWords.length = 2048 := by
  simp [demoWords]

theorem demo_isVocabulary : IsVocabulary demoWords demoIndex := by
  unfold demoIndex
  exact reverseIndex_isVocabulary demoWords demoWords_nodup demoWords_length

theorem lookupIndices_of_lt (words : List String) (I : List Nat)
    (hI : ∀ x ∈ I, x < words.length) :
    lookupIndices words I = some (I.map (fun v => words.getD v "")) := by
  induction I with
  | nil => rfl
  | cons v I ih =>
    have hv : v < words.length := hI v (by simp)
    have hg : words.get? v = some (words.getD v "") := by
      rw [List.get?_eq_get hv, List.getD_eq_getElem _ _ hv]
      rfl
    rw [lookupIndices, hg]
    simp only
    rw [ih (fun x hx => hI x (by simp [hx]))]
    rfl

theorem lookupWords_of_lt {words : List String} {index : String → Option Int}
    (hv : IsVocabulary words index) (I : List Nat) (hI : ∀ x ∈ I, x < 2048) :
    lookupWords index (I.map (fun v => words.getD v "")) = .ok (I.map Int.ofNat) := by
  induction I with
  | nil => rfl
  | cons v I ih =>
    have hlt : v < words.length := by rw [hv.size]; exact hI v (by simp)
    have hg : index (words.getD v "") = some (Int.ofNat v) := by
      rw [List.getD_eq_getElem _ _ hlt]
      exact hv.back v hlt
    simp only [List.map_cons, lookupWords, hg]
    rw [ih (fun x hx => hI x (by simp [hx]))]

theorem lookupWords_append (index : String → Option Int) (A J : List String)
    (A' J' : List Int) (hA : lookupWords index A = .ok A') (hJ : lookupWords index J = .ok J') :
    lookupWords index (A ++ J) = .ok (A' ++ J') := by
  induction A generalizing A' with
  | nil =>
    simp only [lookupWords] at hA
    cases hA
    simpa using hJ
  | cons w A ih =>
    simp only [List.cons_append, lookupWords] at hA ⊢
    cases hw : index w with
    | none => rw [hw] at hA; cases hA
    | some v =>
      rw [hw] at hA
      simp only at hA ⊢
      cases hr : lookupWords index A with
      | error e => rw [hr] at hA; cases hA
      | ok vs =>
        rw [hr] at hA
        simp only at hA
        cases hA
        have := ih vs hr
        simp only [List.append_eq] at this ⊢
        rw [this]
        rfl

theorem lookupWords_total (index : String → Option Int) (J : List String)
    (hJ : ∀ w ∈ J, index w ≠ none) : ∃ J', lookupWords index J = .ok J' := by
  induction J with
  | nil => exact ⟨[], rfl⟩
  | cons w J ih =>
    obtain ⟨J', hJ'⟩ := ih (fun x hx => hJ x (by simp [hx]))
    cases hw : index w with
    | none => exact absurd hw (hJ w (by simp))
    | some v => exact ⟨v :: J', by simp [lookupWords, hw, hJ']⟩

theorem Encode_eq (e : Encoder) (h : e.Words.length = 2048) (data : List Byte) :
    Encode e data = some (encodedWords e.Words e.Framed data) := by
  unfold Encode encodedWords
  apply lookupIndices_of_lt
  intro x hx
  rw [h]
  exact (packToIndices_spec _).2.2 x hx

theorem padBits_count (n : Nat) (m : Nat) (h : m * 11 = 8 * n + padBits n) :
    m = (8 * n + 10) / 11 := by
  unfold padBits at h
  omega

/-! ## Decoding what the encoder emitted -/

theorem unpack_fst (I : List Int) :
    (unpackFromIndices I).1 = (I.foldl unpackStep { acc := 0, accN := 0, out := [] }).out := by
  unfold unpackFromIndices
  simp only
  split <;> rfl

theorem unpack_length (I : List Int) : (unpackFromIndices I).1.length = 11 * I.length / 8 := by
  rw [unpack_fst]
  have := unpack_foldl_count I { acc := 0, accN := 0, out := [] } (by decide)
  simp only [List.length_nil] at this
  omega

theorem unpack_prefix (I J : List Int) :
    (unpackFromIndices I).1 <+: (unpackFromIndices (I ++ J)).1 := by
  rw [unpack_fst, unpack_fst, List.foldl_append]
  exact unpack_foldl_prefix J _

theorem Decode_of_lookup (d : Decoder) (words : List String) (I : List Int) (mode : DecodeMode)
    (h : lookupWords d.Index words = .ok I) : Decode d words mode = decodeIndices d I mode := by
  unfold Decode
  rw [h]

theorem encodeBlob_framed (data : List Byte) (h : data.length < 2 ^ 64) :
    encodeBlob true data = MagicV1 ++ PutUvarint data.length ++ data := by
  unfold encodeBlob u64
  rw [Nat.mod_eq_of_lt h]
  rfl

/-- A complete frame followed by anything decodes to its payload. -/
theorem decodeFramed_complete (d : Decoder) (B tail : List Byte) (hB : B.length < 2 ^ 64)
    (hM : d.MaxLen = 0 ∨ B.length ≤ d.MaxLen) :
    decodeFramed d (MagicV1 ++ PutUvarint B.length ++ B ++ tail) = (B, none) := by
  rw [List.append_assoc _ B tail, decodeFramed_frame d _ hB]
  rw [if_neg (by omega), if_neg (by simp)]
  simp

/-- Auto mode returns the framed payload when the framed attempt succeeds. -/
theorem decodeIndices_auto_ok (d : Decoder) (I : List Int) (B : List Byte)
    (hpad : d.StrictPad = false ∨ (unpackFromIndices I).2 = true)
    (hmagic : hasMagic (unpackFromIndices I).1 = true)
    (hf : decodeFramed d (unpackFromIndices I).1 = (B, none)) :
    decodeIndices d I DecodeAuto = (B, none) := by
  unfold decodeIndices
  have hp : (d.StrictPad && !(unpackFromIndices I).2) = false := by
    rcases hpad with h | h <;> simp [h]
  simp only [hp, hmagic, hf]
  simp [DecodeAuto, DecodeRaw, DecodeFramed]

theorem decodeIndices_framed (d : Decoder) (I : List Int)
    (hpad : d.StrictPad = false ∨ (unpackFromIndices I).2 = true) :
    decodeIndices d I DecodeFramed = decodeFramed d (unpackFromIndices I).1 := by
  unfold decodeIndices
  have hp : (d.StrictPad && !(unpackFromIndices I).2) = false := by
    rcases hpad with h | h <;> simp [h]
  simp only [hp]
  simp [DecodeRaw, DecodeFramed]

theorem decodeIndices_raw (d : Decoder) (I : List Int)
    (hpad : d.StrictPad = false ∨ (unpackFromIndices I).2 = true) :
    decodeIndices d I DecodeRaw = ((unpackFromIndices I).1, none) := by
  unfold decodeIndices
  have hp : (d.StrictPad && !(unpackFromIndices I).2) = false := by
    rcases hpad with h | h <;> simp [h]
  simp only [hp]
  simp

theorem Decode_encodedWords (words : List String) (d : Decoder)
    (hv : IsVocabulary words d.Index) (framed : Bool) (B : List Byte) (mode : DecodeMode) :
    Decode d (encodedWords words framed B) mode
      = decodeIndices d ((packToIndices (encodeBlob framed B)).map Int.ofNat) mode :=
  Decode_of_lookup d _ _ mode (lookupWords_of_lt hv _ (packToIndices_spec _).2.2)


/-! ## Round trips -/

theorem unpack_pack_framed (B : List Byte) (hB : B.length < 2 ^ 64) :
    ∃ tail, unpackFromIndices ((packToIndices (encodeBlob true B)).map Int.ofNat)
      = (MagicV1 ++ PutUvarint B.length ++ B ++ tail, true) := by
  refine ⟨List.replicate (padBits (encodeBlob true B).length / 8) 0, ?_⟩
  rw [unpack_pack, encodeBlob_framed B hB]

/-- Framed decode of a framed encoding, for any decoder that accepts the
declared length. -/
theorem framed_roundtrip_gen (words : List String) (d : Decoder)
    (hv : IsVocabulary words d.Index) (B : List Byte) (hB : B.length < 2 ^ 64)
    (hM : d.MaxLen = 0 ∨ B.length ≤ d.MaxLen) :
    Decode d (encodedWords words true B) DecodeFramed = (B, none) ∧
    Decode d (encodedWords words true B) DecodeAuto = (B, none) := by
  obtain ⟨tail, ht⟩ := unpack_pack_framed B hB
  have hpad : d.StrictPad = false ∨
      (unpackFromIndices ((packToIndices (encodeBlob true B)).map Int.ofNat)).2 = true :=
    Or.inr (by rw [ht])
  have hf : decodeFramed d
      (unpackFromIndices ((packToIndices (encodeBlob true B)).map Int.ofNat)).1 = (B, none) := by
    rw [ht]; exact decodeFramed_complete d B tail hB hM
  constructor
  · rw [Decode_encodedWords words d hv, decodeIndices_framed d _ hpad, hf]
  · rw [Decode_encodedWords words d hv]
    refine decodeIndices_auto_ok d _ B hpad ?_ hf
    rw [ht, List.append_assoc, List.append_assoc]
    exact hasMagic_append _

/-- Above the length limit the framed decode reports an absurd length. -/
theorem framed_decode_over_limit (words : List String) (d : Decoder)
    (hv : IsVocabulary words d.Index) (B : List Byte) (hB : B.length < 2 ^ 64)
    (h0 : 0 < d.MaxLen) (hM : d.MaxLen < B.length) :
    Decode d (encodedWords words true B) DecodeFramed = ([], some Err.AbsurdLength) := by
  obtain ⟨tail, ht⟩ := unpack_pack_framed B hB
  rw [Decode_encodedWords words d hv, decodeIndices_framed d _ (Or.inr (by rw [ht])), ht,
    List.append_assoc _ B tail, decodeFramed_frame d _ hB, if_pos ⟨h0, hM⟩]

/-- C1 (amended): with a vocabulary of 2048 distinct words and its reverse
map, the decoder returned by `NewDecoder` decodes, in framed mode, the framed
encoding of every byte sequence of at most 268435456 bytes (its default
`MaxLen`) to exactly that sequence, with no error. -/
theorem framed_roundtrip_NewDecoder (words : List String) (index : String → Option Int)
    (hv : IsVocabulary words index) (B : List Byte) (hB : B.length ≤ 268435456) :
    ∃ ws, Encode { Words := words, Framed := true } B = some ws ∧
      Decode (NewDecoder index) ws DecodeFramed = (B, none) := by
  refine ⟨_, Encode_eq _ hv.size B, ?_⟩
  have hB64 : B.length < 2 ^ 64 := by omega
  exact (framed_roundtrip_gen words (NewDecoder index) hv B hB64 (Or.inr hB)).1

/-- Witness of C1 (amended): the one-byte payload `0x41` over the concrete
vocabulary. -/
theorem framed_roundtrip_NewDecoder_witness :
    IsVocabulary demoWords demoIndex ∧ ([0x41] : List Byte).length ≤ 268435456 ∧
    ∃ ws, Encode { Words := demoWords, Framed := true } [0x41] = some ws ∧
      Decode (NewDecoder demoIndex) ws DecodeFramed = ([0x41], none) :=
  ⟨demo_isVocabulary, by simp,
    framed_roundtrip_NewDecoder demoWords demoIndex demo_isVocabulary [0x41] (by simp)⟩

/-- C1 (as stated) fails: the framed encoding of 268435457 zero bytes, decoded
in framed mode by the decoder that `NewDecoder` returns, yields no data and
`ErrAbsurdLength`. -/
theorem framed_roundtrip_NewDecoder_over_limit :
    ∃ ws, Encode { Words := demoWords, Framed := true } (List.replicate 268435457 0) = some ws ∧
      Decode (NewDecoder demoIndex) ws DecodeFramed = ([], some Err.AbsurdLength) := by
  refine ⟨_, Encode_eq _ demoWords_length _, ?_⟩
  have hlen : (List.replicate 268435457 (0 : Byte)).length = 268435457 := List.length_replicate _ _
  refine framed_decode_over_limit demoWords (NewDecoder demoIndex) demo_isVocabulary _ ?_ ?_ ?_
  · rw [hlen]; norm_num
  · simp [NewDecoder]
  · rw [hlen]; simp [NewDecoder]

/-- C2: for every byte sequence `B` (a Go slice, so shorter than `2 ^ 63`)
and every decoder over the vocabulary whose `MaxLen` is 0 or at least
`len(B)`, whatever `AllowPartial` and `StrictPad` are, auto mode decodes the
framed encoding of `B` to `(B, nil)`; the indices of the encoder's words have
clean padding, so the strict check passes. -/
theorem framed_roundtrip_auto (words : List String) (d : Decoder)
    (hv : IsVocabulary words d.Index) (B : List Byte) (hB : B.length < 2 ^ 63)
    (hM : d.MaxLen = 0 ∨ B.length ≤ d.MaxLen) :
    ∃ ws, Encode { Words := words, Framed := true } B = some ws ∧
      Decode d ws DecodeAuto = (B, none) ∧
      ∃ I, lookupWords d.Index ws = .ok I ∧ (unpackFromIndices I).2 = true := by
  have hB64 : B.length < 2 ^ 64 := by omega
  refine ⟨_, Encode_eq _ hv.size B, (framed_roundtrip_gen words d hv B hB64 hM).2, _,
    lookupWords_of_lt hv _ (packToIndices_spec _).2.2, ?_⟩
  rw [unpack_pack]

/-- Witness of C2: a two-byte payload and a strict decoder with
`MaxLen = 2`, `AllowPartial = false`, `StrictPad = true`. -/
theorem framed_roundtrip_auto_witness :
    IsVocabulary demoWords demoIndex ∧ ([0x41, 0x42] : List Byte).length < 2 ^ 63 ∧
    ((2 : Nat) = 0 ∨ ([0x41, 0x42] : List Byte).length ≤ 2) ∧
    ∃ ws, Encode { Words := demoWords, Framed := true } [0x41, 0x42] = some ws ∧
      Decode { Index := demoIndex, MaxLen := 2, AllowPartial := false, StrictPad := true }
        ws DecodeAuto = ([0x41, 0x42], none) ∧
      ∃ I, lookupWords demoIndex ws = .ok I ∧ (unpackFromIndices I).2 = true :=
  ⟨demo_isVocabulary, by simp, Or.inr (by simp),
    framed_roundtrip_auto demoWords
      { Index := demoIndex, MaxLen := 2, AllowPartial := false, StrictPad := true }
      demo_isVocabulary [0x41, 0x42] (by simp) (Or.inr (by simp))⟩

/-- C3: for every byte sequence `B` and every decoder over the vocabulary,
raw decoding of the raw encoding of `B` returns no error and `B ++ Z`, where
`Z` holds only zero bytes and has length 0 or 1. -/
theorem raw_roundtrip (words : List String) (d : Decoder)
    (hv : IsVocabulary words d.Index) (B : List Byte) :
    ∃ ws, Encode { Words := words, Framed := false } B = some ws ∧
      ∃ Z, Decode d ws DecodeRaw = (B ++ Z, none) ∧ (∀ z ∈ Z, z = 0) ∧ Z.length ≤ 1 := by
  refine ⟨_, Encode_eq _ hv.size B, List.replicate (padBits B.length / 8) 0, ?_, ?_, ?_⟩
  · have hu := unpack_pack (encodeBlob false B)
    have hb : encodeBlob false B = B := by simp [encodeBlob]
    rw [hb] at hu
    rw [Decode_encodedWords words d hv, hb, decodeIndices_raw d _ (Or.inr (by rw [hu])), hu]
  · intro z hz
    exact List.eq_of_mem_replicate hz
  · have := padBits_lt B.length
    rw [List.length_replicate]
    omega

/-- Witness of C3: the single byte `0xAA` over the concrete vocabulary. -/
theorem raw_roundtrip_witness :
    IsVocabulary demoWords demoIndex ∧
    ∃ ws, Encode { Words := demoWords, Framed := false } [0xAA] = some ws ∧
      ∃ Z, Decode (NewDecoder demoIndex) ws DecodeRaw = ([0xAA] ++ Z, none) ∧
        (∀ z ∈ Z, z = 0) ∧ Z.length ≤ 1 :=
  ⟨demo_isVocabulary, raw_roundtrip demoWords (NewDecoder demoIndex) demo_isVocabulary [0xAA]⟩

/-- C5: with a 2048-word list, `Encode` returns `ceil(8 * N / 11)` words,
where `N` is `len(B)` in raw mode and `8 + len(uvarint(len(B))) + len(B)` in
framed mode. -/
theorem encode_word_count (e : Encoder) (he : e.Words.length = 2048) (B : List Byte) :
    ∃ ws, Encode e B = some ws ∧
      ws.length = (8 * (if e.Framed then 8 + (PutUvarint (u64 B.length)).length + B.length
                        else B.length) + 10) / 11 := by
  refine ⟨_, Encode_eq e he B, ?_⟩
  have h := (packToIndices_spec (encodeBlob e.Framed B)).1
  have hl : (encodeBlob e.Framed B).length
      = if e.Framed then 8 + (PutUvarint (u64 B.length)).length + B.length else B.length := by
    unfold encodeBlob
    cases e.Framed <;> simp [MagicV1]
    omega
  rw [← hl]
  unfold encodedWords
  rw [List.length_map]
  exact padBits_count _ _ h

/-- Witness of C5: the single byte `0xAA` in raw mode yields exactly one
word. -/
theorem encode_word_count_witness :
    demoWords.length = 2048 ∧
    ∃ ws, Encode { Words := demoWords, Framed := false } [0xAA] = some ws ∧ ws.length = 1 :=
  ⟨demoWords_length, by
    simpa using encode_word_count { Words := demoWords, Framed := false } demoWords_length [0xAA]⟩

/-! ## Unknown words -/

theorem lookupWords_find (index : String → Option Int) (words : List String) :
    match words.find? (fun w => (index w).isNone) with
    | some w => lookupWords index words = .error w
    | none => ∃ I, lookupWords index words = .ok I := by
  induction words with
  | nil => exact ⟨[], rfl⟩
  | cons w ws ih =>
    cases hw : index w with
    | none => simp [List.find?, lookupWords, hw]
    | some v =>
      simp only [List.find?, hw, Option.isNone_some, lookupWords]
      cases hf : ws.find? (fun w => (index w).isNone) with
      | some w' =>
        rw [hf] at ih
        simp only at ih ⊢
        rw [ih]
      | none =>
        rw [hf] at ih
        obtain ⟨I, hI⟩ := ih
        exact ⟨v :: I, by rw [hI]⟩

theorem decodeFramed_err (d : Decoder) (b : List Byte) :
    (decodeFramed d b).2 = none ∨ (decodeFramed d b).2 = some Err.BadHeader ∨
    (decodeFramed d b).2 = some Err.AbsurdLength ∨ (decodeFramed d b).2 = some Err.Truncated := by
  unfold decodeFramed
  split
  · simp
  · split
    · simp
    · split
      · simp
      · simp only
        split
        · split <;> simp
        · simp

theorem decodeIndices_not_badWord (d : Decoder) (I : List Int) (mode : DecodeMode) (w : String) :
    (decodeIndices d I mode).2 ≠ some (Err.BadWord w) := by
  have hf := decodeFramed_err d (unpackFromIndices I).1
  unfold decodeIndices
  simp only
  split
  · simp
  · split
    · simp
    · split
      · rcases hf with h | h | h | h <;> rw [h] <;> simp
      · split
        · split
          · split
            · simp
            · split
              · simp
              · split <;> simp
          · simp
        · simp

/-- C4: every word list is decoded, in every mode and by every decoder, in
one of two ways. If some token is absent from `Index`, the first such token
`w` in input order makes `Decode` return no data and the error wrapping
`ErrBadWord` that names `w`; if every token is present, the error of `Decode`
is never an `ErrBadWord` error. (`find?` returns the first element of the
list that satisfies the test, and `none` exactly when no element does.) -/
theorem unknown_word_fatal (d : Decoder) (words : List String) (mode : DecodeMode) :
    match words.find? (fun w => (d.Index w).isNone) with
    | some w => Decode d words mode = ([], some (Err.BadWord w))
    | none => ∀ w, (Decode d words mode).2 ≠ some (Err.BadWord w) := by
  have h := lookupWords_find d.Index words
  cases hf : words.find? (fun w => (d.Index w).isNone) with
  | some w =>
    rw [hf] at h
    simp only at h ⊢
    unfold Decode
    rw [h]
  | none =>
    rw [hf] at h
    obtain ⟨I, hI⟩ := h
    intro w
    rw [Decode_of_lookup d words I mode hI]
    exact decodeIndices_not_badWord d I mode w

/-! ## Trailing words -/

theorem index_of_mem {words : List String} {index : String → Option Int}
    (hv : IsVocabulary words index) (w : String) (hw : w ∈ words) : index w ≠ none := by
  obtain ⟨i, rfl⟩ := List.mem_iff_get.mp hw
  rw [hv.back i.1 i.2]
  simp

/-- C6: for every payload `B` (a Go slice) whose length the decoder accepts
(`MaxLen` is 0, which disables the limit, or at least `len(B)`) and every
list `J` of vocabulary words, a decoder with `StrictPad = false` decodes the
framed encoding of `B` followed by `J` to `(B, nil)`, in framed mode and in
auto mode. -/
theorem trailing_junk_ignored (words : List String) (d : Decoder)
    (hv : IsVocabulary words d.Index) (hS : d.StrictPad = false) (B : List Byte)
    (hB : B.length < 2 ^ 63) (hM : d.MaxLen = 0 ∨ B.length ≤ d.MaxLen)
    (J : List String) (hJ : ∀ w ∈ J, w ∈ words) :
    ∃ ws, Encode { Words := words, Framed := true } B = some ws ∧
      Decode d (ws ++ J) DecodeFramed = (B, none) ∧
      Decode d (ws ++ J) DecodeAuto = (B, none) := by
  have hB64 : B.length < 2 ^ 64 := by omega
  refine ⟨_, Encode_eq _ hv.size B, ?_⟩
  obtain ⟨J', hJ'⟩ := lookupWords_total d.Index J (fun w hw => index_of_mem hv w (hJ w hw))
  have hlook := lookupWords_append d.Index _ J _ J'
    (lookupWords_of_lt hv _ (packToIndices_spec (encodeBlob true B)).2.2) hJ'
  obtain ⟨tail, ht⟩ := unpack_pack_framed B hB64
  obtain ⟨t, hpre⟩ := unpack_prefix ((packToIndices (encodeBlob true B)).map Int.ofNat) J'
  rw [ht] at hpre
  simp only at hpre
  have hf : decodeFramed d
      (unpackFromIndices ((packToIndices (encodeBlob true B)).map Int.ofNat ++ J')).1
        = (B, none) := by
    rw [← hpre, List.append_assoc _ tail t]
    exact decodeFramed_complete d B (tail ++ t) hB64 hM
  have hm : hasMagic
      (unpackFromIndices ((packToIndices (encodeBlob true B)).map Int.ofNat ++ J')).1 = true := by
    rw [← hpre, List.append_assoc, List.append_assoc, List.append_assoc]
    exact hasMagic_append _
  constructor
  · exact (Decode_of_lookup d _ _ DecodeFramed hlook).trans
      ((decodeIndices_framed d _ (Or.inl hS)).trans hf)
  · exact (Decode_of_lookup d _ _ DecodeAuto hlook).trans
      (decodeIndices_auto_ok d _ B (Or.inl hS) hm hf)

/-- Witness of C6: the payload `0x41` followed by the first three words of
the concrete vocabulary. -/
theorem trailing_junk_ignored_witness :
    IsVocabulary demoWords demoIndex ∧ (NewDecoder demoIndex).StrictPad = false ∧
    ([0x41] : List Byte).length < 2 ^ 63 ∧
    ((NewDecoder demoIndex).MaxLen = 0 ∨ ([0x41] : List Byte).length ≤ (NewDecoder demoIndex).MaxLen) ∧
    (∀ w ∈ demoWords.take 3, w ∈ demoWords) ∧
    ∃ ws, Encode { Words := demoWords, Framed := true } [0x41] = some ws ∧
      Decode (NewDecoder demoIndex) (ws ++ demoWords.take 3) DecodeFramed = ([0x41], none) ∧
      Decode (NewDecoder demoIndex) (ws ++ demoWords.take 3) DecodeAuto = ([0x41], none) :=
  ⟨demo_isVocabulary, rfl, by simp, Or.inr (by simp [NewDecoder]),
    fun _ hw => List.mem_of_mem_take hw,
    trailing_junk_ignored demoWords (NewDecoder demoIndex) demo_isVocabulary rfl [0x41]
      (by simp) (Or.inr (by simp [NewDecoder])) (demoWords.take 3)
      (fun _ hw => List.mem_of_mem_take hw)⟩

/-! ## Truncated word lists -/

/-- Unpacking the first `k` words of a packed blob, some word being left
out, gives the first `⌊11k/8⌋` bytes of the blob, which are not all of it. -/
theorem unpack_take_pack (blob : List Byte) (k : Nat) (hk : k < (packToIndices blob).length) :
    (unpackFromIndices (((packToIndices blob).take k).map Int.ofNat)).1
      = blob.take (11 * k / 8) ∧ 11 * k / 8 < blob.length := by
  obtain ⟨hlen, -, -⟩ := packToIndices_spec blob
  have hp := padBits_lt blob.length
  have hlt : 11 * k / 8 < blob.length := by omega
  refine ⟨?_, hlt⟩
  have hsplit : (packToIndices blob).map Int.ofNat
      = ((packToIndices blob).take k).map Int.ofNat ++ ((packToIndices blob).drop k).map Int.ofNat := by
    rw [← List.map_append, List.take_append_drop]
  have hpre := unpack_prefix (((packToIndices blob).take k).map Int.ofNat)
    (((packToIndices blob).drop k).map Int.ofNat)
  rw [← hsplit, unpack_pack] at hpre
  simp only at hpre
  have hl := unpack_length (((packToIndices blob).take k).map Int.ofNat)
  rw [List.length_map, List.length_take, Nat.min_eq_left (Nat.le_of_lt hk)] at hl
  rw [List.prefix_iff_eq_take.mp hpre, hl, List.take_append_of_le_length (Nat.le_of_lt hlt)]

theorem take_frame (V B : List Byte) (j : Nat) (hj : 8 + V.length ≤ j) :
    (MagicV1 ++ V ++ B).take j = MagicV1 ++ V ++ B.take (j - 8 - V.length) := by
  have hl : (MagicV1 ++ V).length = 8 + V.length := by simp [MagicV1]; omega
  rw [List.take_append_eq_append_take, List.take_of_length_le (by omega), hl, Nat.sub_sub]

theorem lookupWords_take {words : List String} {index : String → Option Int}
    (hv : IsVocabulary words index) (framed : Bool) (B : List Byte) (k : Nat) :
    lookupWords index ((encodedWords words framed B).take k)
      = .ok (((packToIndices (encodeBlob framed B)).take k).map Int.ofNat) := by
  unfold encodedWords
  rw [← List.map_take]
  exact lookupWords_of_lt hv _
    (fun x hx => (packToIndices_spec (encodeBlob framed B)).2.2 x (List.mem_of_mem_take hx))

/-- What the unpacker and `decodeFramed` see of a framed encoding cut after
`k` words when the header survived: a truncated frame. -/
theorem truncated_frame_bytes (d : Decoder) (B : List Byte) (hB : B.length < 2 ^ 64)
    (hM : d.MaxLen = 0 ∨ B.length ≤ d.MaxLen) (k : Nat)
    (hk : k < (packToIndices (encodeBlob true B)).length)
    (hh : 8 + (PutUvarint B.length).length ≤ 11 * k / 8) :
    (unpackFromIndices (((packToIndices (encodeBlob true B)).take k).map Int.ofNat)).1
      = MagicV1 ++ PutUvarint B.length ++ B.take (11 * k / 8 - 8 - (PutUvarint B.length).length) ∧
    11 * k / 8 - 8 - (PutUvarint B.length).length < B.length ∧
    decodeFramed d
      (unpackFromIndices (((packToIndices (encodeBlob true B)).take k).map Int.ofNat)).1
      = (if d.AllowPartial then B.take (11 * k / 8 - 8 - (PutUvarint B.length).length) else [],
          some Err.Truncated) := by
  obtain ⟨h1, h2⟩ := unpack_take_pack (encodeBlob true B) k hk
  have hl : (encodeBlob true B).length = 8 + (PutUvarint B.length).length + B.length := by
    rw [encodeBlob_framed B hB]; simp [MagicV1]; omega
  have hb := encodeBlob_framed B hB
  rw [hb, take_frame _ _ _ hh, ← hb] at h1
  have hj : 11 * k / 8 - 8 - (PutUvarint B.length).length < B.length := by omega
  refine ⟨h1, hj, ?_⟩
  rw [h1, decodeFramed_frame d _ hB, if_neg (by omega),
    if_pos (by rw [List.length_take]; omega)]
  cases d.AllowPartial <;> rfl

theorem encodedWords_length (words : List String) (framed : Bool) (B : List Byte) :
    (encodedWords words framed B).length = (packToIndices (encodeBlob framed B)).length := by
  unfold encodedWords
  rw [List.length_map]

theorem Decode_take_encodedWords (words : List String) (d : Decoder)
    (hv : IsVocabulary words d.Index) (framed : Bool) (B : List Byte) (k : Nat)
    (mode : DecodeMode) :
    Decode d ((encodedWords words framed B).take k) mode
      = decodeIndices d (((packToIndices (encodeBlob framed B)).take k).map Int.ofNat) mode :=
  Decode_of_lookup d _ _ mode (lookupWords_take hv framed B k)

/-- Auto mode returns the partial payload of a truncated frame, without an
error, when partial results are allowed. -/
theorem decodeIndices_auto_truncated (d : Decoder) (I : List Int) (P : List Byte)
    (hpad : d.StrictPad = false ∨ (unpackFromIndices I).2 = true)
    (hA : d.AllowPartial = true)
    (hmagic : hasMagic (unpackFromIndices I).1 = true)
    (hf : decodeFramed d (unpackFromIndices I).1 = (P, some Err.Truncated)) :
    decodeIndices d I DecodeAuto = (P, none) := by
  unfold decodeIndices
  have hp : (d.StrictPad && !(unpackFromIndices I).2) = false := by
    rcases hpad with h | h <;> simp [h]
  simp only [hp, hmagic, hf, hA]
  simp [DecodeAuto, DecodeRaw, DecodeFramed]

/-- Framed and auto decode of a framed encoding cut after `k` words, the
header being whole. -/
theorem truncated_decode (words : List String) (d : Decoder)
    (hv : IsVocabulary words d.Index) (hS : d.StrictPad = false) (hA : d.AllowPartial = true)
    (B : List Byte) (hB : B.length < 2 ^ 64) (hM : d.MaxLen = 0 ∨ B.length ≤ d.MaxLen)
    (k : Nat) (hk : k < (encodedWords words true B).length)
    (hh : 8 + (PutUvarint B.length).length ≤ 11 * k / 8) :
    11 * k / 8 - 8 - (PutUvarint B.length).length < B.length ∧
    Decode d ((encodedWords words true B).take k) DecodeFramed
      = (B.take (11 * k / 8 - 8 - (PutUvarint B.length).length), some Err.Truncated) ∧
    Decode d ((encodedWords words true B).take k) DecodeAuto
      = (B.take (11 * k / 8 - 8 - (PutUvarint B.length).length), none) := by
  rw [encodedWords_length] at hk
  obtain ⟨h1, h2, h3⟩ := truncated_frame_bytes d B hB hM k hk hh
  rw [hA] at h3
  simp only [if_true] at h3
  refine ⟨h2, ?_, ?_⟩
  · rw [Decode_take_encodedWords words d hv, decodeIndices_framed d _ (Or.inl hS), h3]
  · rw [Decode_take_encodedWords words d hv]
    refine decodeIndices_auto_truncated d _ _ (Or.inl hS) hA ?_ h3
    rw [h1, List.append_assoc]
    exact hasMagic_append _

/-- Framed and auto decode of a framed encoding cut after `k` words, the
header being whole and the padding of the remaining words not rejected. -/
theorem truncated_decode_pad (words : List String) (d : Decoder)
    (hv : IsVocabulary words d.Index) (hA : d.AllowPartial = true)
    (B : List Byte) (hB : B.length < 2 ^ 64) (hM : d.MaxLen = 0 ∨ B.length ≤ d.MaxLen)
    (k : Nat) (hk : k < (encodedWords words true B).length)
    (hh : 8 + (PutUvarint B.length).length ≤ 11 * k / 8)
    (hpad : d.StrictPad = false ∨
      ∃ I, lookupWords d.Index ((encodedWords words true B).take k) = .ok I ∧
        (unpackFromIndices I).2 = true) :
    11 * k / 8 - 8 - (PutUvarint B.length).length < B.length ∧
    Decode d ((encodedWords words true B).take k) DecodeFramed
      = (B.take (11 * k / 8 - 8 - (PutUvarint B.length).length), some Err.Truncated) ∧
    Decode d ((encodedWords words true B).take k) DecodeAuto
      = (B.take (11 * k / 8 - 8 - (PutUvarint B.length).length), none) := by
  rw [encodedWords_length] at hk
  obtain ⟨h1, h2, h3⟩ := truncated_frame_bytes d B hB hM k hk hh
  rw [hA] at h3
  simp only [if_true] at h3
  have hp : d.StrictPad = false ∨
      (unpackFromIndices (((packToIndices (encodeBlob true B)).take k).map Int.ofNat)).2
        = true := by
    rcases hpad with h | ⟨I, hI, hok⟩
    · exact Or.inl h
    · rw [lookupWords_take hv true B k] at hI
      cases hI
      exact Or.inr hok
  refine ⟨h2, ?_, ?_⟩
  · rw [Decode_take_encodedWords words d hv, decodeIndices_framed d _ hp, h3]
  · rw [Decode_take_encodedWords words d hv]
    refine decodeIndices_auto_truncated d _ _ hp hA ?_ h3
    rw [h1, List.append_assoc]
    exact hasMagic_append _

/-- C7 (amended): for every byte sequence `B` (a Go slice) whose length the
decoder accepts, a decoder with `AllowPartial = true`, and every `K` with
`0 < K < number of words` such that the words left after removing the last
`K` still unpack to the whole header (8 magic bytes and the length varint)
and their padding is not rejected (`StrictPad = false`, or their leftover
bits are zero): framed mode returns a strict prefix of `B` together with
`ErrTruncated`, and the bytes that auto mode returns are the same strict
prefix. Nothing is stated about the error of auto mode. -/
theorem truncated_frame_partial (words : List String) (d : Decoder)
    (hv : IsVocabulary words d.Index) (hA : d.AllowPartial = true)
    (B : List Byte) (hB : B.length < 2 ^ 63) (hM : d.MaxLen = 0 ∨ B.length ≤ d.MaxLen) :
    ∃ ws, Encode { Words := words, Framed := true } B = some ws ∧
      ∀ K, 0 < K → K < ws.length →
        8 + (PutUvarint B.length).length ≤ 11 * (ws.length - K) / 8 →
        (d.StrictPad = false ∨
          ∃ I, lookupWords d.Index (ws.take (ws.length - K)) = .ok I ∧
            (unpackFromIndices I).2 = true) →
        ∃ P, P <+: B ∧ P.length < B.length ∧
          Decode d (ws.take (ws.length - K)) DecodeFramed = (P, some Err.Truncated) ∧
          (Decode d (ws.take (ws.length - K)) DecodeAuto).1 = P := by
  refine ⟨_, Encode_eq _ hv.size B, ?_⟩
  dsimp only
  intro K hK0 hK hh hpad
  obtain ⟨h1, h2, h3⟩ := truncated_decode_pad words d hv hA B (by omega) hM
    ((encodedWords words true B).length - K) (by omega) hh hpad
  refine ⟨_, List.take_prefix _ B, ?_, h2, by rw [h3]⟩
  rw [List.length_take]
  omega

/-- C8: for every byte sequence `B` (a Go slice) whose length the decoder
accepts and every number `k` of remaining words, smaller than the number of
words of the framed encoding, that still unpack to the whole header, a decoder
with `AllowPartial = true` and `StrictPad = false` in auto mode returns the
payload bytes wholly contained in the remaining words, `B[: ⌊11k/8⌋ - 8 -
len(uvarint)]`, a strict prefix of `B`, and a nil error. -/
theorem auto_truncated_partial (words : List String) (d : Decoder)
    (hv : IsVocabulary words d.Index) (hS : d.StrictPad = false) (hA : d.AllowPartial = true)
    (B : List Byte) (hB : B.length < 2 ^ 63) (hM : d.MaxLen = 0 ∨ B.length ≤ d.MaxLen) :
    ∃ ws, Encode { Words := words, Framed := true } B = some ws ∧
      ∀ k, k < ws.length → 8 + (PutUvarint B.length).length ≤ 11 * k / 8 →
        Decode d (ws.take k) DecodeAuto
          = (B.take (11 * k / 8 - 8 - (PutUvarint B.length).length), none) ∧
        B.take (11 * k / 8 - 8 - (PutUvarint B.length).length) <+: B ∧
        (B.take (11 * k / 8 - 8 - (PutUvarint B.length).length)).length < B.length := by
  refine ⟨_, Encode_eq _ hv.size B, ?_⟩
  dsimp only
  intro k hk hh
  obtain ⟨h1, -, h3⟩ := truncated_decode words d hv hS hA B (by omega) hM k hk hh
  refine ⟨h3, List.take_prefix _ B, ?_⟩
  rw [List.length_take]
  omega

/-- C9: for every word list found in the index whose unpacked bytes are
`magic ++ uvarint(L) ++ rest` with `len(rest) < L`, `L` not rejected by the
length limit and the padding not rejected, framed mode returns
`(rest, ErrTruncated)` when `AllowPartial` is true and `(nil, ErrTruncated)`
when it is false. -/
theorem framed_truncation_row (d : Decoder) (words : List String) (I : List Int)
    (L : Nat) (rest : List Byte) (hI : lookupWords d.Index words = .ok I)
    (hraw : (unpackFromIndices I).1 = MagicV1 ++ PutUvarint L ++ rest) (hL : L < 2 ^ 64)
    (hlt : rest.length < L) (hM : d.MaxLen = 0 ∨ L ≤ d.MaxLen)
    (hpad : d.StrictPad = false ∨ (unpackFromIndices I).2 = true) :
    Decode d words DecodeFramed = (if d.AllowPartial then rest else [], some Err.Truncated) := by
  rw [Decode_of_lookup d words I _ hI, decodeIndices_framed d I hpad, hraw,
    decodeFramed_frame d L hL rest, if_neg (by omega), if_pos hlt]
  cases d.AllowPartial <;> rfl

theorem Encode_some_eq (e : Encoder) (h : e.Words.length = 2048) (B : List Byte)
    (ws : List String) (hws : Encode e B = some ws) : ws = encodedWords e.Words e.Framed B := by
  rw [Encode_eq e h B] at hws
  exact (Option.some.inj hws).symm

/-- Witness of C7 (amended): the framed encoding of three bytes has nine
words; the first eight unpack to eleven whole bytes, so the header is whole
and no bit is left over, and a decoder with `StrictPad = true` and
`AllowPartial = true` returns the first two payload bytes with
`ErrTruncated` in framed mode. -/
theorem truncated_frame_partial_witness :
    IsVocabulary demoWords demoIndex ∧
    ([0x41, 0x42, 0x43] : List Byte).length < 2 ^ 63 ∧
    ((268435456 : Nat) = 0 ∨ ([0x41, 0x42, 0x43] : List Byte).length ≤ 268435456) ∧
    ∃ ws, Encode { Words := demoWords, Framed := true } [0x41, 0x42, 0x43] = some ws ∧
      0 < 1 ∧ 1 < ws.length ∧
      8 + (PutUvarint ([0x41, 0x42, 0x43] : List Byte).length).length
        ≤ 11 * (ws.length - 1) / 8 ∧
      (∃ I, lookupWords demoIndex (ws.take (ws.length - 1)) = .ok I ∧
        (unpackFromIndices I).2 = true) ∧
      Decode { Index := demoIndex, MaxLen := 268435456, AllowPartial := true, StrictPad := true }
        (ws.take (ws.length - 1)) DecodeFramed = ([0x41, 0x42], some Err.Truncated) ∧
      (Decode { Index := demoIndex, MaxLen := 268435456, AllowPartial := true, StrictPad := true }
        (ws.take (ws.length - 1)) DecodeAuto).1 = [0x41, 0x42] := by
  obtain ⟨ws, hws, h⟩ := truncated_frame_partial demoWords
    { Index := demoIndex, MaxLen := 268435456, AllowPartial := true, StrictPad := true }
    demo_isVocabulary rfl [0x41, 0x42, 0x43] (by simp) (Or.inr (by simp))
  have hws' := Encode_some_eq _ demoWords_length _ ws hws
  dsimp only at hws'
  have hl : ws.length = 9 := by
    rw [hws', encodedWords_length]
    set_option maxRecDepth 100000 in decide
  have h1 : 1 < ws.length := by rw [hl]; decide
  have h2 : 8 + (PutUvarint ([0x41, 0x42, 0x43] : List Byte).length).length
      ≤ 11 * (ws.length - 1) / 8 := by
    rw [hl]
    set_option maxRecDepth 100000 in decide
  have h3 : ∃ I, lookupWords demoIndex (ws.take (ws.length - 1)) = .ok I ∧
      (unpackFromIndices I).2 = true := by
    refine ⟨((packToIndices (encodeBlob true [0x41, 0x42, 0x43])).take (9 - 1)).map Int.ofNat,
      ?_, ?_⟩
    · rw [hl, hws']
      exact lookupWords_take demo_isVocabulary true [0x41, 0x42, 0x43] (9 - 1)
    · set_option maxRecDepth 100000 in decide
  obtain ⟨P, hP, hPl, hF, hAu⟩ := h 1 (by decide) h1 h2 (Or.inr h3)
  have hPeq : P = [0x41, 0x42] := by
    have hF' := hF
    rw [hl, hws', Decode_take_encodedWords demoWords _ demo_isVocabulary] at hF'
    have hval : decodeIndices
        { Index := demoIndex, MaxLen := 268435456, AllowPartial := true, StrictPad := true }
        (((packToIndices (encodeBlob true [0x41, 0x42, 0x43])).take (9 - 1)).map Int.ofNat)
        DecodeFramed = ([0x41, 0x42], some Err.Truncated) := by
      set_option maxRecDepth 100000 in decide
    rw [hval] at hF'
    exact (congrArg Prod.fst hF').symm
  subst hPeq
  exact ⟨demo_isVocabulary, by simp, Or.inr (by simp), ws, hws, by decide, h1, h2, h3, hF, hAu⟩

/-- Witness of C8: the first eight of the nine words of the framed encoding
of `0x41 0x42 0x43` decode, in auto mode, to `0x41 0x42` and a nil error. -/
theorem auto_truncated_partial_witness :
    IsVocabulary demoWords demoIndex ∧ (NewDecoder demoIndex).StrictPad = false ∧
    (NewDecoder demoIndex).AllowPartial = true ∧
    ([0x41, 0x42, 0x43] : List Byte).length < 2 ^ 63 ∧
    ((NewDecoder demoIndex).MaxLen = 0 ∨
      ([0x41, 0x42, 0x43] : List Byte).length ≤ (NewDecoder demoIndex).MaxLen) ∧
    ∃ ws, Encode { Words := demoWords, Framed := true } [0x41, 0x42, 0x43] = some ws ∧
      8 < ws.length ∧
      Decode (NewDecoder demoIndex) (ws.take 8) DecodeAuto = ([0x41, 0x42], none) := by
  obtain ⟨ws, hws, h⟩ := auto_truncated_partial demoWords (NewDecoder demoIndex)
    demo_isVocabulary rfl rfl [0x41, 0x42, 0x43] (by simp) (Or.inr (by simp [NewDecoder]))
  have hl : ws.length = 9 := by
    rw [Encode_some_eq _ demoWords_length _ ws hws, encodedWords_length]
    set_option maxRecDepth 100000 in decide
  have h1 : 8 < ws.length := by rw [hl]; decide
  have h2 := (h 8 h1 (by set_option maxRecDepth 100000 in decide)).1
  have h3 : List.take (11 * 8 / 8 - 8 - (PutUvarint ([0x41, 0x42, 0x43] : List Byte).length).length)
      ([0x41, 0x42, 0x43] : List Byte) = [0x41, 0x42] := by
    set_option maxRecDepth 100000 in decide
  rw [h3] at h2
  exact ⟨demo_isVocabulary, rfl, rfl, by simp, Or.inr (by simp [NewDecoder]), ws, hws, h1, h2⟩

/-- Witness of C9: the first seven of the eight words of the framed encoding
of `0x41` unpack to the magic and the varint of 1, with no payload byte. -/
theorem framed_truncation_row_witness :
    lookupWords demoIndex ((encodedWords demoWords true [0x41]).take 7)
      = .ok (((packToIndices (encodeBlob true [0x41])).take 7).map Int.ofNat) ∧
    (unpackFromIndices (((packToIndices (encodeBlob true [0x41])).take 7).map Int.ofNat)).1
      = MagicV1 ++ PutUvarint 1 ++ [] ∧
    1 < 2 ^ 64 ∧ ([] : List Byte).length < 1 ∧ ((0 : Nat) = 0 ∨ 1 ≤ 0) ∧
    Decode { Index := demoIndex, MaxLen := 0, AllowPartial := false, StrictPad := false }
      ((encodedWords demoWords true [0x41]).take 7) DecodeFramed
        = ([], some Err.Truncated) :=
  ⟨lookupWords_take demo_isVocabulary true [0x41] 7,
    by set_option maxRecDepth 100000 in decide, by decide, by decide, Or.inl rfl,
    framed_truncation_row
      { Index := demoIndex, MaxLen := 0, AllowPartial := false, StrictPad := false }
      ((encodedWords demoWords true [0x41]).take 7)
      (((packToIndices (encodeBlob true [0x41])).take 7).map Int.ofNat) 1 []
      (lookupWords_take demo_isVocabulary true [0x41] 7)
      (by set_option maxRecDepth 100000 in decide) (by decide) (by decide)
      (Or.inl rfl) (Or.inl rfl)⟩

/-- C7 (as stated) fails, `AllowPartial` being true in each case and `K = 1`.
(1) The framed encoding of the empty payload has seven words; without the
last one the length varint is gone and framed mode reports `ErrBadHeader`,
not `ErrTruncated`. (2) The framed encoding of `0xFF 0xFF` has eight words;
without the last one the leftover bits are not zero and a decoder with
`StrictPad = true` returns `ErrBadPadding`. (3) The framed encoding of
`0x41 0x42 0x43` has nine words; without the last one a decoder with
`MaxLen = 2` returns `ErrAbsurdLength`. -/
theorem truncated_frame_not_always_signalled :
    (∃ ws, Encode { Words := demoWords, Framed := true } [] = some ws ∧ ws.length = 7 ∧
      Decode (NewDecoder demoIndex) (ws.take (ws.length - 1)) DecodeFramed
        = ([], some Err.BadHeader)) ∧
    (∃ ws, Encode { Words := demoWords, Framed := true } [0xFF, 0xFF] = some ws ∧
      ws.length = 8 ∧
      Decode { Index := demoIndex, MaxLen := 268435456, AllowPartial := true, StrictPad := true }
        (ws.take (ws.length - 1)) DecodeFramed = ([], some Err.BadPadding)) ∧
    (∃ ws, Encode { Words := demoWords, Framed := true } [0x41, 0x42, 0x43] = some ws ∧
      ws.length = 9 ∧
      Decode { Index := demoIndex, MaxLen := 2, AllowPartial := true, StrictPad := false }
        (ws.take (ws.length - 1)) DecodeFramed = ([], some Err.AbsurdLength)) := by
  refine ⟨?_, ?_, ?_⟩
  · refine ⟨_, Encode_eq _ demoWords_length _, ?_⟩
    have hl : (encodedWords demoWords true []).length = 7 := by
      rw [encodedWords_length]; decide
    refine ⟨hl, ?_⟩
    dsimp only
    rw [hl, Decode_take_encodedWords demoWords (NewDecoder demoIndex) demo_isVocabulary]
    set_option maxRecDepth 100000 in decide
  · refine ⟨_, Encode_eq _ demoWords_length _, ?_⟩
    have hl : (encodedWords demoWords true [0xFF, 0xFF]).length = 8 := by
      rw [encodedWords_length]; set_option maxRecDepth 100000 in decide
    refine ⟨hl, ?_⟩
    dsimp only
    rw [hl, Decode_take_encodedWords demoWords _ demo_isVocabulary]
    set_option maxRecDepth 100000 in decide
  · refine ⟨_, Encode_eq _ demoWords_length _, ?_⟩
    have hl : (encodedWords demoWords true [0x41, 0x42, 0x43]).length = 9 := by
      rw [encodedWords_length]; set_option maxRecDepth 100000 in decide
    refine ⟨hl, ?_⟩
    dsimp only
    rw [hl, Decode_take_encodedWords demoWords _ demo_isVocabulary]
    set_option maxRecDepth 100000 in decide

/-- C10 (code): the framed encoding of the one byte `0x41` without its last
word carries the magic and the declared length 1 but no payload byte; auto
mode with `AllowPartial = false` returns the nine unpacked header bytes with
a nil error instead of failing with `ErrTruncated`. -/
theorem auto_truncated_no_partial_returns_raw :
    ∃ ws, Encode { Words := demoWords, Framed := true } [0x41] = some ws ∧ ws.length = 8 ∧
      Decode { Index := demoIndex, MaxLen := 268435456, AllowPartial := false, StrictPad := false }
        (ws.take 7) DecodeAuto = ([0x57, 0x45, 0x4E, 0x43, 0x01, 0x00, 0xA7, 0x7C, 0x01], none) ∧
      Decode { Index := demoIndex, MaxLen := 268435456, AllowPartial := false, StrictPad := false }
        (ws.take 7) DecodeFramed = ([], some Err.Truncated) := by
  refine ⟨_, Encode_eq _ demoWords_length _, ?_⟩
  have hl : (encodedWords demoWords true [0x41]).length = 8 := by
    rw [encodedWords_length]; set_option maxRecDepth 100000 in decide
  refine ⟨hl, ?_, ?_⟩
  · dsimp only
    rw [Decode_take_encodedWords demoWords _ demo_isVocabulary]
    set_option maxRecDepth 100000 in decide
  · dsimp only
    rw [Decode_take_encodedWords demoWords _ demo_isVocabulary]
    set_option maxRecDepth 100000 in decide

/-! ## Length limit -/

/-- C11 (amended): for every decoder with `MaxLen > 0` and every word list
found in the index whose padding the decoder does not reject and whose
unpacked bytes begin with the magic followed by a readable varint `L`: if `L`
exceeds `MaxLen`, framed mode fails with `ErrAbsurdLength` and returns no
data, whatever follows the varint. -/
theorem absurd_length_fatal (d : Decoder) (words : List String) (I : List Int) (L : Nat)
    (r : List Byte) (hI : lookupWords d.Index words = .ok I)
    (hpad : d.StrictPad = false ∨ (unpackFromIndices I).2 = true)
    (hmagic : hasMagic (unpackFromIndices I).1 = true)
    (hread : ReadUvarint ((unpackFromIndices I).1.drop 8) = some (L, r))
    (h0 : 0 < d.MaxLen) (hL : d.MaxLen < L) :
    Decode d words DecodeFramed = ([], some Err.AbsurdLength) := by
  rw [Decode_of_lookup d words I _ hI, decodeIndices_framed d I hpad]
  unfold decodeFramed
  rw [hmagic, hread]
  simp only [Bool.not_true, Bool.false_eq_true, if_false]
  rw [if_pos ⟨h0, hL⟩]

/-- Witness of C11 (amended): the framed encoding of `0x41 0x42 0x43` and a
decoder with `MaxLen = 2`. -/
theorem absurd_length_fatal_witness :
    lookupWords demoIndex (encodedWords demoWords true [0x41, 0x42, 0x43])
      = .ok ((packToIndices (encodeBlob true [0x41, 0x42, 0x43])).map Int.ofNat) ∧
    hasMagic (unpackFromIndices
      ((packToIndices (encodeBlob true [0x41, 0x42, 0x43])).map Int.ofNat)).1 = true ∧
    ReadUvarint ((unpackFromIndices
      ((packToIndices (encodeBlob true [0x41, 0x42, 0x43])).map Int.ofNat)).1.drop 8)
        = some (3, [0x41, 0x42, 0x43]) ∧
    (0 : Nat) < 2 ∧ (2 : Nat) < 3 ∧
    Decode { Index := demoIndex, MaxLen := 2, AllowPartial := true, StrictPad := false }
      (encodedWords demoWords true [0x41, 0x42, 0x43]) DecodeFramed
        = ([], some Err.AbsurdLength) :=
  ⟨lookupWords_of_lt demo_isVocabulary _ (packToIndices_spec _).2.2,
    by set_option maxRecDepth 100000 in decide,
    by set_option maxRecDepth 100000 in decide, by decide, by decide,
    absurd_length_fatal
      { Index := demoIndex, MaxLen := 2, AllowPartial := true, StrictPad := false }
      (encodedWords demoWords true [0x41, 0x42, 0x43])
      ((packToIndices (encodeBlob true [0x41, 0x42, 0x43])).map Int.ofNat) 3
      [0x41, 0x42, 0x43]
      (lookupWords_of_lt demo_isVocabulary _ (packToIndices_spec _).2.2) (Or.inl rfl)
      (by set_option maxRecDepth 100000 in decide)
      (by set_option maxRecDepth 100000 in decide) (by decide) (by decide)⟩

/-- C11 (as stated) fails for two decoder configurations. (1) With
`MaxLen = 0` the limit is disabled: the framed encoding of the byte `0x41`
declares the length 1, which exceeds 0, and framed mode returns the payload
with a nil error. (2) With `StrictPad = true` and `MaxLen = 1`, the first
seven of the eight words of the framed encoding of `0xFF 0xFF` unpack to the
magic and the varint 2, which exceeds 1, but the leftover bits are not zero
and `Decode` returns `ErrBadPadding`. -/
theorem absurd_length_not_for_every_config :
    (∃ ws I, Encode { Words := demoWords, Framed := true } [0x41] = some ws ∧
      lookupWords demoIndex ws = .ok I ∧
      (unpackFromIndices I).1 = MagicV1 ++ [0x01] ++ [0x41, 0x00] ∧
      Decode { Index := demoIndex, MaxLen := 0, AllowPartial := true, StrictPad := false }
        ws DecodeFramed = ([0x41], none)) ∧
    (∃ ws I, Encode { Words := demoWords, Framed := true } [0xFF, 0xFF] = some ws ∧
      lookupWords demoIndex (ws.take 7) = .ok I ∧
      (unpackFromIndices I).1 = MagicV1 ++ [0x02] ∧
      Decode { Index := demoIndex, MaxLen := 1, AllowPartial := true, StrictPad := true }
        (ws.take 7) DecodeFramed = ([], some Err.BadPadding)) := by
  constructor
  · refine ⟨_, _, Encode_eq _ demoWords_length _,
      lookupWords_of_lt demo_isVocabulary _ (packToIndices_spec _).2.2, ?_, ?_⟩
    · set_option maxRecDepth 100000 in decide
    · dsimp only
      rw [Decode_encodedWords demoWords _ demo_isVocabulary]
      set_option maxRecDepth 100000 in decide
  · refine ⟨_, _, Encode_eq _ demoWords_length _,
      lookupWords_take demo_isVocabulary true _ 7, ?_, ?_⟩
    · set_option maxRecDepth 100000 in decide
    · dsimp only
      rw [Decode_take_encodedWords demoWords _ demo_isVocabulary]
      set_option maxRecDepth 100000 in decide

/-- Auto mode falls back to the raw bytes when the framed attempt reports a
bad header or an absurd length. -/
theorem decodeIndices_auto_fallback (d : Decoder) (I : List Int)
    (hpad : d.StrictPad = false ∨ (unpackFromIndices I).2 = true)
    (hf : (decodeFramed d (unpackFromIndices I).1).2 = some Err.BadHeader ∨
          (decodeFramed d (unpackFromIndices I).1).2 = some Err.AbsurdLength) :
    decodeIndices d I DecodeAuto = ((unpackFromIndices I).1, none) := by
  unfold decodeIndices
  have hp : (d.StrictPad && !(unpackFromIndices I).2) = false := by
    rcases hpad with h | h <;> simp [h]
  simp only [hp]
  have hne : (decodeFramed d (unpackFromIndices I).1).2 ≠ none := by
    rcases hf with h | h <;> rw [h] <;> simp
  simp [DecodeAuto, DecodeRaw, DecodeFramed, hne, hf]

/-- C12: for every byte sequence `B` (a Go slice) and every decoder over
the vocabulary with `0 < MaxLen < len(B)` (whatever `StrictPad` is, the
encoder's padding being clean), auto mode decodes the framed encoding of `B`
to the whole unpacked bitstream `magic ++ uvarint(len(B)) ++ B ++ Z` with a
nil error, where `Z` is at most one zero byte; this output is longer than `B`
and differs from `B`. -/
theorem auto_falls_back_over_limit (words : List String) (d : Decoder)
    (hv : IsVocabulary words d.Index) (B : List Byte) (hB : B.length < 2 ^ 63)
    (h0 : 0 < d.MaxLen) (hM : d.MaxLen < B.length) :
    ∃ ws, Encode { Words := words, Framed := true } B = some ws ∧
      ∃ Z, Decode d ws DecodeAuto = (MagicV1 ++ PutUvarint B.length ++ B ++ Z, none) ∧
        (∀ z ∈ Z, z = 0) ∧ Z.length ≤ 1 ∧
        B.length < (MagicV1 ++ PutUvarint B.length ++ B ++ Z).length ∧
        MagicV1 ++ PutUvarint B.length ++ B ++ Z ≠ B := by
  have hB64 : B.length < 2 ^ 64 := by omega
  have hu := unpack_pack (encodeBlob true B)
  have hb := encodeBlob_framed B hB64
  have hlen : B.length < (MagicV1 ++ PutUvarint B.length ++ B
      ++ List.replicate (padBits (encodeBlob true B).length / 8) (0 : Byte)).length := by
    simp [MagicV1]; omega
  refine ⟨_, Encode_eq _ hv.size B,
    List.replicate (padBits (encodeBlob true B).length / 8) 0, ?_, ?_, ?_, hlen, ?_⟩
  · dsimp only
    rw [Decode_encodedWords words d hv, decodeIndices_auto_fallback d _ (Or.inr (by rw [hu])) ?_,
      hu, hb]
    right
    rw [hu, hb]
    simp only
    rw [List.append_assoc _ B, decodeFramed_frame d _ hB64, if_pos ⟨h0, hM⟩]
  · intro z hz
    exact List.eq_of_mem_replicate hz
  · have := padBits_lt (encodeBlob true B).length
    rw [List.length_replicate]
    omega
  · intro h
    rw [h] at hlen
    exact Nat.lt_irrefl _ hlen

/-- Witness of C12: a three-byte payload and a decoder with `MaxLen = 2`. -/
theorem auto_falls_back_over_limit_witness :
    IsVocabulary demoWords demoIndex ∧ ([0x41, 0x42, 0x43] : List Byte).length < 2 ^ 63 ∧
    (0 : Nat) < 2 ∧ 2 < ([0x41, 0x42, 0x43] : List Byte).length ∧
    ∃ ws, Encode { Words := demoWords, Framed := true } [0x41, 0x42, 0x43] = some ws ∧
      ∃ Z, Decode { Index := demoIndex, MaxLen := 2, AllowPartial := true, StrictPad := false }
          ws DecodeAuto
          = (MagicV1 ++ PutUvarint ([0x41, 0x42, 0x43] : List Byte).length
              ++ [0x41, 0x42, 0x43] ++ Z, none) ∧
        (∀ z ∈ Z, z = 0) ∧ Z.length ≤ 1 ∧
        ([0x41, 0x42, 0x43] : List Byte).length
          < (MagicV1 ++ PutUvarint ([0x41, 0x42, 0x43] : List Byte).length
              ++ [0x41, 0x42, 0x43] ++ Z).length ∧
        MagicV1 ++ PutUvarint ([0x41, 0x42, 0x43] : List Byte).length
          ++ [0x41, 0x42, 0x43] ++ Z ≠ [0x41, 0x42, 0x43] :=
  ⟨demo_isVocabulary, by simp, by decide, by simp,
    auto_falls_back_over_limit demoWords
      { Index := demoIndex, MaxLen := 2, AllowPartial := true, StrictPad := false }
      demo_isVocabulary [0x41, 0x42, 0x43] (by simp) (by decide) (by simp)⟩

/-! ## Auto mode without the magic -/

theorem decodeIndices_auto_no_magic (d : Decoder) (I : List Int)
    (h : hasMagic (unpackFromIndices I).1 = false) :
    decodeIndices d I DecodeAuto = decodeIndices d I DecodeRaw := by
  unfold decodeIndices
  simp only [h]
  simp [DecodeAuto, DecodeRaw, DecodeFramed]

/-- C13: for every decoder and every word list, if the unpacked bytes do not
begin with the magic (`hasMagic` is false, which includes fewer than eight
bytes), auto mode returns the same bytes and error as raw mode; in
particular, when the index is that of a vocabulary, for a byte sequence `B`
of `8 * len(B)` bits, a multiple of 11, that does not start with the magic,
auto mode decodes the raw encoding of `B` to exactly `B`. -/
theorem auto_without_magic_is_raw (d : Decoder) (words : List String)
    (hno : ∀ I, lookupWords d.Index words = .ok I → hasMagic (unpackFromIndices I).1 = false) :
    Decode d words DecodeAuto = Decode d words DecodeRaw ∧
    ∀ (vocab : List String) (B : List Byte), IsVocabulary vocab d.Index →
      (8 * B.length) % 11 = 0 → hasMagic B = false →
      ∃ ws, Encode { Words := vocab, Framed := false } B = some ws ∧
        Decode d ws DecodeAuto = (B, none) := by
  constructor
  · cases hl : lookupWords d.Index words with
    | error w => unfold Decode; rw [hl]
    | ok I =>
      rw [Decode_of_lookup d words I _ hl, Decode_of_lookup d words I _ hl]
      exact decodeIndices_auto_no_magic d I (hno I hl)
  · intro vocab B hv h11 hm
    refine ⟨_, Encode_eq _ hv.size B, ?_⟩
    have hb : encodeBlob false B = B := by simp [encodeBlob]
    have hp : padBits B.length = 0 := by unfold padBits; omega
    have hu := unpack_pack (encodeBlob false B)
    rw [hb, hp] at hu
    simp only [Nat.zero_div, List.replicate_zero, List.append_nil] at hu
    dsimp only
    rw [Decode_encodedWords vocab d hv, hb,
      decodeIndices_auto_no_magic d _ (by rw [hu]; exact hm),
      decodeIndices_raw d _ (Or.inr (by rw [hu])), hu]

/-- Witness of C13: the one word of the raw encoding of `0xAA` unpacks to a
single byte, and the eleven bytes of `hello world` make exactly eight
words. -/
theorem auto_without_magic_is_raw_witness :
    (∀ I, lookupWords (NewDecoder demoIndex).Index (encodedWords demoWords false [0xAA]) = .ok I →
      hasMagic (unpackFromIndices I).1 = false) ∧
    IsVocabulary demoWords (NewDecoder demoIndex).Index ∧
    (8 * ([0x68, 0x65, 0x6C, 0x6C, 0x6F, 0x20, 0x77, 0x6F, 0x72, 0x6C, 0x64] : List Byte).length)
      % 11 = 0 ∧
    hasMagic [0x68, 0x65, 0x6C, 0x6C, 0x6F, 0x20, 0x77, 0x6F, 0x72, 0x6C, 0x64] = false ∧
    Decode (NewDecoder demoIndex) (encodedWords demoWords false [0xAA]) DecodeAuto
      = Decode (NewDecoder demoIndex) (encodedWords demoWords false [0xAA]) DecodeRaw ∧
    ∃ ws, Encode { Words := demoWords, Framed := false }
        [0x68, 0x65, 0x6C, 0x6C, 0x6F, 0x20, 0x77, 0x6F, 0x72, 0x6C, 0x64] = some ws ∧
      Decode (NewDecoder demoIndex) ws DecodeAuto
        = ([0x68, 0x65, 0x6C, 0x6C, 0x6F, 0x20, 0x77, 0x6F, 0x72, 0x6C, 0x64], none) := by
  have hno : ∀ I, lookupWords (NewDecoder demoIndex).Index
      (encodedWords demoWords false [0xAA]) = .ok I →
      hasMagic (unpackFromIndices I).1 = false := by
    intro I hI
    have h := lookupWords_of_lt demo_isVocabulary (packToIndices (encodeBlob false [0xAA]))
      (packToIndices_spec _).2.2
    have hI' : lookupWords demoIndex (encodedWords demoWords false [0xAA]) = .ok I := hI
    unfold encodedWords at hI'
    rw [h] at hI'
    cases hI'
    set_option maxRecDepth 100000 in decide
  have h := auto_without_magic_is_raw (NewDecoder demoIndex)
    (encodedWords demoWords false [0xAA]) hno
  have h11 : (8 * ([0x68, 0x65, 0x6C, 0x6C, 0x6F, 0x20, 0x77, 0x6F, 0x72, 0x6C, 0x64]
      : List Byte).length) % 11 = 0 := by decide
  have hm : hasMagic [0x68, 0x65, 0x6C, 0x6C, 0x6F, 0x20, 0x77, 0x6F, 0x72, 0x6C, 0x64]
      = false := by set_option maxRecDepth 100000 in decide
  exact ⟨hno, demo_isVocabulary, h11, hm, h.1, h.2 demoWords _ demo_isVocabulary h11 hm⟩

/-! ## Range of the packed indices -/

/-- C18: every index that `packToIndices` produces, for a blob of any
length, is below 2048; `NewEncoder` rejects every word list whose length is
not 2048; hence for an encoder accepted by `NewEncoder` and every byte
sequence, framed or raw, no lookup `e.Words[v]` of `Encode` is out of range
and `Encode` returns its words. -/
theorem encode_lookup_in_range (words : List String) (framed : Bool) :
    (∀ blob : List Byte, ∀ v ∈ packToIndices blob, v < 2048) ∧
    (NewEncoder words framed = none ↔ words.length ≠ 2048) ∧
    (∀ e, NewEncoder words framed = some e → ∀ B : List Byte,
      (∀ v ∈ packToIndices (encodeBlob e.Framed B), v < e.Words.length) ∧
      ∃ ws, Encode e B = some ws) := by
  refine ⟨fun blob => (packToIndices_spec blob).2.2, ?_, ?_⟩
  · unfold NewEncoder
    split <;> simp_all
  · intro e he B
    unfold NewEncoder at he
    split at he
    · cases he
    · rename_i hlen
      cases he
      have hl : words.length = 2048 := by simpa using hlen
      refine ⟨?_, _, Encode_eq _ hl B⟩
      intro v hv
      dsimp only at hv ⊢
      rw [hl]
      exact (packToIndices_spec _).2.2 v hv

/-- Witness of C18: `NewEncoder` accepts the concrete vocabulary, and the
encoder it returns encodes the byte `0xAA`. -/
theorem encode_lookup_in_range_witness :
    ∃ e, NewEncoder demoWords true = some e ∧ ∃ ws, Encode e [0xAA] = some ws := by
  have hl := demoWords_length
  have he : NewEncoder demoWords true = some { Words := demoWords, Framed := true } := by
    unfold NewEncoder
    rw [if_neg (by simp [hl])]
  exact ⟨_, he, ((encode_lookup_in_range demoWords true).2.2 _ he [0xAA]).2⟩

/-! ## Raw mode cannot tell padding from data -/

theorem pack_append_zero (B : List Byte) (h : 8 ≤ padBits B.length) :
    packToIndices (B ++ [0]) = packToIndices B := by
  obtain ⟨hl1, hv1, hd1⟩ := packToIndices_spec (B ++ [0])
  obtain ⟨hl2, hv2, hd2⟩ := packToIndices_spec B
  have hlen : (B ++ [(0 : Byte)]).length = B.length + 1 := by simp
  rw [hlen] at hl1 hv1
  have hp : padBits (B.length + 1) + 8 = padBits B.length := by
    unfold padBits at h ⊢
    omega
  apply bval_inj 11 _ _ (by omega) hd1 hd2
  rw [hv1, hv2, bytesVal_snoc, ← hp, Nat.pow_add]
  have h0 : ((0 : Byte) : Nat) = 0 := rfl
  rw [h0, Nat.add_zero, Nat.mul_assoc, Nat.mul_comm (2 ^ padBits (B.length + 1))]

/-- C20: for every three-byte sequence `B`, the sequences `B` and `B`
followed by one `0x00` byte are distinct and `Encode` with `Framed = false`
returns the same word list for both, so the raw decoding of that list is the
same for both. -/
theorem raw_padding_ambiguous (words : List String) (hw : words.length = 2048)
    (B : List Byte) (hB : B.length = 3) :
    B ≠ B ++ [0] ∧
    ∃ ws, Encode { Words := words, Framed := false } B = some ws ∧
      Encode { Words := words, Framed := false } (B ++ [0]) = some ws := by
  constructor
  · intro h
    have := congrArg List.length h
    simp at this
  · refine ⟨_, Encode_eq _ hw B, ?_⟩
    rw [Encode_eq _ hw (B ++ [0])]
    unfold encodedWords encodeBlob
    simp only [Bool.false_eq_true, if_false]
    rw [pack_append_zero B (by rw [hB]; decide)]

/-- Witness of C20: the three bytes `0x01 0x02 0x03`. -/
theorem raw_padding_ambiguous_witness :
    demoWords.length = 2048 ∧ ([0x01, 0x02, 0x03] : List Byte).length = 3 ∧
    ([0x01, 0x02, 0x03] : List Byte) ≠ [0x01, 0x02, 0x03] ++ [0] ∧
    ∃ ws, Encode { Words := demoWords, Framed := false } [0x01, 0x02, 0x03] = some ws ∧
      Encode { Words := demoWords, Framed := false } ([0x01, 0x02, 0x03] ++ [0]) = some ws :=
  ⟨demoWords_length, rfl,
    raw_padding_ambiguous demoWords demoWords_length [0x01, 0x02, 0x03] rfl⟩

/-! ## Strict padding -/

theorem lookupWords_length (index : String → Option Int) (words : List String) (I : List Int)
    (h : lookupWords index words = .ok I) : I.length = words.length := by
  induction words generalizing I with
  | nil =>
    simp only [lookupWords] at h
    cases h
    rfl
  | cons w ws ih =>
    simp only [lookupWords] at h
    cases hw : index w with
    | none => rw [hw] at h; cases h
    | some v =>
      rw [hw] at h
      simp only at h
      cases hr : lookupWords index ws with
      | error e => rw [hr] at h; cases h
      | ok vs =>
        rw [hr] at h
        simp only at h
        cases h
        simp [ih vs hr]

theorem bval_mod_last (I : List Nat) (r : Nat) (hr : r ≤ 11) :
    bval 11 I % 2 ^ r = I.getLastD 0 % 2 ^ r := by
  rcases List.eq_nil_or_concat I with h | ⟨I', x, rfl⟩
  · subst h; rfl
  · simp only [List.concat_eq_append]
    rw [bval_snoc, List.getLastD_concat]
    have e : (2 : Nat) ^ 11 = 2 ^ (11 - r) * 2 ^ r := by
      rw [← Nat.pow_add]; congr 1; omega
    rw [e, ← Nat.mul_assoc, Nat.add_comm, Nat.add_mul_mod_self_right]

/-- The padding flag of the unpacker on digits below 2048: it is false
exactly when leftover bits exist and the low leftover bits of the last digit
are not all zero. -/
theorem unpack_padOK (I : List Nat) (hI : ∀ x ∈ I, x < 2048) :
    ((unpackFromIndices (I.map Int.ofNat)).2 = false ↔
      0 < (11 * I.length) % 8 ∧ I.getLastD 0 % 2 ^ ((11 * I.length) % 8) ≠ 0) := by
  have hc := unpack_foldl_count (I.map Int.ofNat) { acc := 0, accN := 0, out := [] } (by decide)
  have hv := unpack_foldl_value I hI [] { acc := 0, accN := 0, out := [] }
    (by decide) (by decide) rfl
  unfold unpackFromIndices
  simp only
  generalize (I.map Int.ofNat).foldl unpackStep { acc := 0, accN := 0, out := [] } = s at hc hv ⊢
  simp only [List.length_map, List.length_nil, List.nil_append] at hc hv
  have hr : s.accN = (11 * I.length) % 8 := by omega
  have hm : s.acc &&& ((1 <<< s.accN) - 1) = s.acc := by
    rw [Nat.shiftLeft_eq, Nat.one_mul, Nat.and_pow_two_sub_one_eq_mod, Nat.mod_eq_of_lt hv.1]
  have hacc : s.acc = I.getLastD 0 % 2 ^ s.accN := by
    rw [← bval_mod_last I s.accN (by omega), hv.2, Nat.mul_add_mod_of_lt hv.1]
  rw [hm, ← hr, ← hacc]
  split <;> simp_all

theorem decodeIndices_badPadding (d : Decoder) (I : List Int) (mode : DecodeMode) :
    ((decodeIndices d I mode).2 = some Err.BadPadding ↔
      d.StrictPad = true ∧ (unpackFromIndices I).2 = false) ∧
    ((decodeIndices d I mode).2 = some Err.BadPadding → (decodeIndices d I mode).1 = []) := by
  have hf := decodeFramed_err d (unpackFromIndices I).1
  unfold decodeIndices
  simp only
  by_cases hp : (d.StrictPad && !(unpackFromIndices I).2) = true
  · rw [if_pos hp]
    simp only [Bool.and_eq_true, Bool.not_eq_true'] at hp
    simp [hp]
  · rw [if_neg hp]
    have hp' : ¬(d.StrictPad = true ∧ (unpackFromIndices I).2 = false) := by
      simpa using hp
    split
    · simp [hp']
    · split
      · rcases hf with h | h | h | h <;> rw [h] <;> simp [hp']
      · split
        · split
          · split
            · simp [hp']
            · split
              · simp [hp']
              · split <;> simp [hp']
          · simp [hp']
        · simp [hp']

/-- C14: for every list of `n` words found in the index with indices in
`[0, 2047]`, with `r = (11 * n) mod 8` leftover bits, and for every mode
(the check precedes the dispatch): `Decode` returns `ErrBadPadding` if and
only if `StrictPad` is true, `r > 0` and the low `r` bits of the last index
are not all zero, and it then returns no data; with `StrictPad = false` the
leftover bits are dropped and raw mode returns the `⌊11n/8⌋` unpacked bytes
with a nil error. -/
theorem strict_padding_iff (d : Decoder) (words : List String) (I : List Nat)
    (hI : ∀ x ∈ I, x < 2048) (hl : lookupWords d.Index words = .ok (I.map Int.ofNat))
    (mode : DecodeMode) :
    ((Decode d words mode).2 = some Err.BadPadding ↔
      d.StrictPad = true ∧ 0 < (11 * words.length) % 8 ∧
        I.getLastD 0 % 2 ^ ((11 * words.length) % 8) ≠ 0) ∧
    ((Decode d words mode).2 = some Err.BadPadding → (Decode d words mode).1 = []) ∧
    (d.StrictPad = false →
      Decode d words DecodeRaw = ((unpackFromIndices (I.map Int.ofNat)).1, none) ∧
      (unpackFromIndices (I.map Int.ofNat)).1.length = 11 * words.length / 8) := by
  have hlen : I.length = words.length := by
    have := lookupWords_length d.Index words _ hl
    simpa using this
  have hb := decodeIndices_badPadding d (I.map Int.ofNat) mode
  rw [Decode_of_lookup d words _ mode hl, ← hlen]
  refine ⟨?_, hb.2, ?_⟩
  · rw [hb.1, unpack_padOK I hI]
  · intro hS
    rw [Decode_of_lookup d words _ _ hl, decodeIndices_raw d _ (Or.inl hS), unpack_length]
    simp

/-- Witness of C14: the word of index 1361, which is the raw encoding of
`0xAA` with its lowest padding bit set. -/
theorem strict_padding_iff_witness :
    (∀ x ∈ [1361], x < 2048) ∧
    lookupWords demoIndex ([1361].map (fun v => demoWords.getD v ""))
      = .ok ([1361].map Int.ofNat) ∧
    (Decode { Index := demoIndex, MaxLen := 0, AllowPartial := true, StrictPad := true }
      ([1361].map (fun v => demoWords.getD v "")) DecodeRaw).2 = some Err.BadPadding := by
  have hI : ∀ x ∈ [1361], x < 2048 := by decide
  have hl := lookupWords_of_lt demo_isVocabulary [1361] hI
  have h := strict_padding_iff
    { Index := demoIndex, MaxLen := 0, AllowPartial := true, StrictPad := true }
    ([1361].map (fun v => demoWords.getD v "")) [1361] hI hl DecodeRaw
  exact ⟨hI, hl, h.1.mpr ⟨rfl, by decide, by decide⟩⟩

/-- C15 (amended): for every list of `n` words found in the index with
indices in `[0, 2047]` whose leftover bits are not all zero, the unpacker
returns its `⌊11n/8⌋` bytes together with the flag "padding not clean", and
`Decode` with `StrictPad = true` reports `ErrBadPadding` and returns no data,
in every mode. -/
theorem strict_padding_defect_no_data (d : Decoder) (words : List String) (I : List Nat)
    (hI : ∀ x ∈ I, x < 2048) (hl : lookupWords d.Index words = .ok (I.map Int.ofNat))
    (hS : d.StrictPad = true)
    (hbits : 0 < (11 * words.length) % 8 ∧
      I.getLastD 0 % 2 ^ ((11 * words.length) % 8) ≠ 0)
    (mode : DecodeMode) :
    Decode d words mode = ([], some Err.BadPadding) ∧
    (unpackFromIndices (I.map Int.ofNat)).2 = false ∧
    (unpackFromIndices (I.map Int.ofNat)).1.length = 11 * words.length / 8 := by
  have hlen : I.length = words.length := by
    have := lookupWords_length d.Index words _ hl
    simpa using this
  rw [← hlen] at hbits ⊢
  have hp := (unpack_padOK I hI).mpr hbits
  refine ⟨?_, hp, by rw [unpack_length]; simp⟩
  rw [Decode_of_lookup d words _ mode hl]
  unfold decodeIndices
  simp [hS, hp]

/-- Witness of C15 (amended): the word of index 1361 and a strict decoder. -/
theorem strict_padding_defect_no_data_witness :
    (∀ x ∈ [1361], x < 2048) ∧
    lookupWords demoIndex ([1361].map (fun v => demoWords.getD v ""))
      = .ok ([1361].map Int.ofNat) ∧
    (0 < (11 * ([1361].map (fun v => demoWords.getD v "")).length) % 8 ∧
      [1361].getLastD 0 % 2 ^ ((11 * ([1361].map (fun v => demoWords.getD v "")).length) % 8)
        ≠ 0) ∧
    Decode { Index := demoIndex, MaxLen := 0, AllowPartial := true, StrictPad := true }
      ([1361].map (fun v => demoWords.getD v "")) DecodeFramed = ([], some Err.BadPadding) := by
  have hI : ∀ x ∈ [1361], x < 2048 := by decide
  have hl := lookupWords_of_lt demo_isVocabulary [1361] hI
  have hb : 0 < (11 * ([1361].map (fun v => demoWords.getD v "")).length) % 8 ∧
      [1361].getLastD 0 % 2 ^ ((11 * ([1361].map (fun v => demoWords.getD v "")).length) % 8)
        ≠ 0 := by
    simp only [List.length_map, List.length_singleton]
    decide
  exact ⟨hI, hl, hb,
    (strict_padding_defect_no_data
      { Index := demoIndex, MaxLen := 0, AllowPartial := true, StrictPad := true }
      ([1361].map (fun v => demoWords.getD v "")) [1361] hI hl rfl hb DecodeFramed).1⟩

/-- C15 (as stated) fails: the single word of index 1361 unpacks to the byte
`0xAA` with three leftover bits `001`; a decoder with `StrictPad = true`
reports `ErrBadPadding` and returns no data, not the byte produced so far. -/
theorem strict_padding_defect_drops_bytes :
    lookupWords demoIndex [demoWords.getD 1361 ""] = .ok [1361] ∧
    unpackFromIndices [1361] = ([0xAA], false) ∧
    Decode { Index := demoIndex, MaxLen := 268435456, AllowPartial := true, StrictPad := true }
      [demoWords.getD 1361 ""] DecodeRaw = ([], some Err.BadPadding) := by
  have hl : lookupWords demoIndex [demoWords.getD 1361 ""] = .ok [1361] :=
    lookupWords_of_lt demo_isVocabulary [1361] (by decide)
  refine ⟨hl, by set_option maxRecDepth 100000 in decide, ?_⟩
  rw [Decode_of_lookup _ _ _ _ hl]
  set_option maxRecDepth 100000 in decide

/-! ## Header defects -/

theorem readUvarintLoop_isSome (r : List Byte) :
    ∀ (left i x s : Nat), left + i = 10 →
      ((readUvarintLoop left i x s r).isSome = true ↔
        ∃ k, varintEnd r = some k ∧ (i + k < 9 ∨ (i + k = 9 ∧ (r.getD k 0).val ≤ 1))) := by
  induction r with
  | nil =>
    intro left i x s _
    cases left <;> simp [readUvarintLoop, varintEnd]
  | cons b rest ih =>
    intro left i x s hli
    cases left with
    | zero =>
      simp only [readUvarintLoop, Option.isSome_none, Bool.false_eq_true, false_iff]
      rintro ⟨k, -, h⟩
      omega
    | succ l =>
      by_cases hb : b.val < 0x80
      · simp only [readUvarintLoop, hb, if_true, varintEnd, MaxVarintLen64]
        constructor
        · intro h
          refine ⟨0, rfl, ?_⟩
          simp only [List.getD_cons_zero, Nat.add_zero]
          split at h
          · simp at h
          · omega
        · rintro ⟨k, hk, h⟩
          cases hk
          simp only [List.getD_cons_zero, Nat.add_zero] at h
          rw [if_neg (by omega)]
          rfl
      · simp only [readUvarintLoop, hb, if_false, varintEnd]
        rw [ih l (i + 1) _ _ (by omega)]
        constructor
        · rintro ⟨k, hk, h⟩
          refine ⟨k + 1, by simp [hk], ?_⟩
          simp only [List.getD_cons_succ]
          omega
        · rintro ⟨k, hk, h⟩
          cases hv : varintEnd rest with
          | none => simp [hv] at hk
          | some k' =>
            simp only [hv, Option.map_some', Option.some.injEq] at hk
            subst hk
            simp only [List.getD_cons_succ] at h
            exact ⟨k', rfl, by omega⟩

/-- The standard-library reader succeeds exactly on the inputs that the
specification calls a readable varint. -/
theorem ReadUvarint_isSome (r : List Byte) :
    (ReadUvarint r).isSome = specReadableUvarint r := by
  have h := readUvarintLoop_isSome r MaxVarintLen64 0 0 0 rfl
  unfold ReadUvarint specReadableUvarint
  cases hv : varintEnd r with
  | none =>
    simp only [hv] at h ⊢
    cases hs : (readUvarintLoop MaxVarintLen64 0 0 0 r).isSome with
    | false => rfl
    | true => rw [hs] at h; simp at h
  | some k =>
    simp only [hv] at h ⊢
    cases hs : (readUvarintLoop MaxVarintLen64 0 0 0 r).isSome with
    | false =>
      rw [hs] at h
      have h' : ¬(k < 9 ∨ k = 9 ∧ (r.getD k 0).val ≤ 1) := by
        intro hk
        have := h.mpr ⟨k, rfl, by simpa using hk⟩
        simp at this
      symm
      simpa [Bool.or_eq_false_iff] using h'
    | true =>
      rw [hs] at h
      obtain ⟨k', hk', h'⟩ := h.mp rfl
      cases hk'
      symm
      simpa using h'

theorem hasMagic_false_iff (b : List Byte) :
    hasMagic b = false ↔ b.length < 8 ∨ b.take 8 ≠ MagicV1 := by
  unfold hasMagic
  have : MagicV1.length = 8 := rfl
  rw [this]
  by_cases h1 : 8 ≤ b.length <;> by_cases h2 : b.take 8 = MagicV1 <;> simp [h1, h2]
  all_goals omega

theorem decodeFramed_badHeader (d : Decoder) (b : List Byte) :
    ((decodeFramed d b).2 = some Err.BadHeader ↔
      hasMagic b = false ∨ specReadableUvarint (b.drop 8) = false) ∧
    ((decodeFramed d b).2 = some Err.BadHeader → (decodeFramed d b).1 = []) := by
  have hr := ReadUvarint_isSome (b.drop 8)
  unfold decodeFramed
  cases hm : hasMagic b with
  | false => simp
  | true =>
    simp only [Bool.not_true, Bool.false_eq_true, if_false, false_or]
    cases hu : ReadUvarint (b.drop 8) with
    | none =>
      rw [hu] at hr
      simp [← hr]
    | some p =>
      rw [hu] at hr
      obtain ⟨L, r⟩ := p
      simp only [← hr, Option.isSome_some]
      split_ifs <;> simp

/-- C16: for every word list found in the index whose padding the decoder
does not reject, framed mode returns `ErrBadHeader` if and only if the
unpacked bytes are fewer than eight, or their first eight bytes differ from
the magic, or the bytes after the magic do not start with a readable unsigned
varint (the input ends before a byte without continuation bit, or the value
overflows 64 bits); it then returns no data. Neither `MaxLen` nor the number
of payload bytes enters the condition: the header checks come first. -/
theorem bad_header_iff (d : Decoder) (words : List String) (I : List Int)
    (hl : lookupWords d.Index words = .ok I)
    (hpad : d.StrictPad = false ∨ (unpackFromIndices I).2 = true) :
    ((Decode d words DecodeFramed).2 = some Err.BadHeader ↔
      (unpackFromIndices I).1.length < 8 ∨ (unpackFromIndices I).1.take 8 ≠ MagicV1 ∨
        specReadableUvarint ((unpackFromIndices I).1.drop 8) = false) ∧
    ((Decode d words DecodeFramed).2 = some Err.BadHeader →
      (Decode d words DecodeFramed).1 = []) := by
  rw [Decode_of_lookup d words I _ hl, decodeIndices_framed d I hpad]
  have h := decodeFramed_badHeader d (unpackFromIndices I).1
  refine ⟨?_, h.2⟩
  rw [h.1, hasMagic_false_iff, or_assoc]

/-- Witness of C16: the first six of the seven words of the framed encoding
of the empty payload unpack to the magic alone; the length varint is
missing and framed mode reports `ErrBadHeader`. -/
theorem bad_header_iff_witness :
    lookupWords demoIndex ((encodedWords demoWords true []).take 6)
      = .ok (((packToIndices (encodeBlob true [])).take 6).map Int.ofNat) ∧
    (Decode (NewDecoder demoIndex) ((encodedWords demoWords true []).take 6) DecodeFramed).2
      = some Err.BadHeader ∧
    (Decode (NewDecoder demoIndex) ((encodedWords demoWords true []).take 6) DecodeFramed).1
      = [] := by
  have hl := lookupWords_take demo_isVocabulary true [] 6
  have h := bad_header_iff (NewDecoder demoIndex) ((encodedWords demoWords true []).take 6)
    (((packToIndices (encodeBlob true [])).take 6).map Int.ofNat) hl (Or.inl rfl)
  have hb := h.1.mpr (Or.inr (Or.inr (by set_option maxRecDepth 100000 in decide)))
  exact ⟨hl, hb, h.2 hb⟩

/-! ## Loading the vocabulary -/

theorem scanWords_eq (lines : List String) :
    scanWords lines = (lines.map TrimSpace).filter (fun w => decide (w ≠ "")) := by
  induction lines with
  | nil => rfl
  | cons l ls ih =>
    by_cases h : TrimSpace l = ""
    · simp [scanWords, h, ih]
    · simp [scanWords, h, ih]

theorem buildIndex_spec (ws : List String) :
    ∀ (i : Nat) (index : String → Option Int),
      ((buildIndex ws i index).isSome = true ↔ ws.Nodup ∧ ∀ w ∈ ws, index w = none) ∧
      ∀ index', buildIndex ws i index = some index' →
        ∀ x, index' x = if x ∈ ws then some ((i + ws.indexOf x : Nat) : Int) else index x := by
  induction ws with
  | nil =>
    intro i index
    refine ⟨by simp [buildIndex], ?_⟩
    intro index' h x
    simp only [buildIndex, Option.some.injEq] at h
    subst h
    simp
  | cons w ws ih =>
    intro i index
    cases hw : index w with
    | some v =>
      refine ⟨?_, ?_⟩
      · simp only [buildIndex, hw, Option.isSome_some, if_true, Option.isSome_none,
          Bool.false_eq_true, false_iff]
        rintro ⟨-, h⟩
        have := h w (by simp)
        rw [hw] at this
        cases this
      · intro index' h
        simp [buildIndex, hw] at h
    | none =>
      obtain ⟨ih1, ih2⟩ := ih (i + 1) (fun x => if x = w then some (i : Int) else index x)
      have hstep : buildIndex (w :: ws) i index
          = buildIndex ws (i + 1) (fun x => if x = w then some (i : Int) else index x) := by
        simp [buildIndex, hw]
      rw [hstep]
      refine ⟨?_, ?_⟩
      · rw [ih1, List.nodup_cons]
        constructor
        · rintro ⟨hn, h⟩
          refine ⟨⟨?_, hn⟩, ?_⟩
          · intro hmem
            have := h w hmem
            simp at this
          · intro x hx
            rcases List.mem_cons.mp hx with rfl | hx
            · exact hw
            · have := h x hx
              by_cases hxw : x = w
              · rw [hxw]; exact hw
              · simpa [hxw] using this
        · rintro ⟨⟨hnot, hn⟩, h⟩
          refine ⟨hn, ?_⟩
          intro x hx
          have hxw : x ≠ w := by rintro rfl; exact hnot hx
          simp only [hxw, if_false]
          exact h x (by simp [hx])
      · intro index' h x
        have hsome : (buildIndex ws (i + 1)
            (fun x => if x = w then some (i : Int) else index x)).isSome = true := by
          rw [h]; rfl
        have hnot : w ∉ ws := by
          intro hmem
          have := (ih1.mp hsome).2 w hmem
          simp at this
        rw [ih2 index' h x]
        by_cases hxw : x = w
        · subst hxw
          simp [hnot]
        · by_cases hx : x ∈ ws
          · have hne : w ≠ x := fun e => hxw e.symm
            simp only [hx, if_true, List.mem_cons, or_true, List.indexOf_cons_ne _ hne]
            congr 2
            omega
          · simp [hx, hxw]

theorem buildIndex_reverseIndex (ws : List String) (index' : String → Option Int)
    (h : buildIndex ws 0 (fun _ => none) = some index') : index' = reverseIndex ws := by
  funext x
  rw [(buildIndex_spec ws 0 (fun _ => none)).2 index' h x]
  unfold reverseIndex
  simp

theorem reverseIndex_keys (ws : List String) (hn : ws.Nodup) :
    Set.ncard {w | reverseIndex ws w ≠ none} = ws.length := by
  have hset : {w | reverseIndex ws w ≠ none} = (↑ws.toFinset : Set String) := by
    ext w
    unfold reverseIndex
    by_cases hw : w ∈ ws <;> simp [hw]
  rw [hset, Set.ncard_coe_Finset, List.toFinset_card_of_nodup hn]

theorem isSpace_spec (c : Char) : isSpace c = decide (c.toNat ∈ specWhiteSpace) := by
  unfold isSpace specWhiteSpace
  generalize c.toNat = n
  rw [decide_eq_decide]
  simp only [List.mem_cons, List.mem_singleton, List.mem_nil_iff, or_false]
  omega

theorem TrimSpace_spec (l : String) : TrimSpace l = specTrim l := by
  have h : isSpace = fun c => decide (c.toNat ∈ specWhiteSpace) := funext isSpace_spec
  unfold TrimSpace specTrim List.rdropWhile
  rw [h]

theorem rdropWhile_dropWhile_concat (p : Char → Bool) (xs : List Char) (c : Char)
    (hc : p c = true) :
    List.rdropWhile p (List.dropWhile p (xs ++ [c])) =
      List.rdropWhile p (List.dropWhile p xs) := by
  rw [List.dropWhile_append]
  split
  · rename_i he
    have h1 : List.dropWhile p xs = [] := List.isEmpty_iff.mp he
    rw [h1]
    simp [List.dropWhile, hc]
  · exact List.rdropWhile_concat_pos _ _ _ hc

theorem specTrim_dropCR (l : String) : specTrim (dropCR l) = specTrim l := by
  unfold dropCR
  split
  · rename_i hlast
    have hne : l.data ≠ [] := by
      intro h
      rw [h] at hlast
      cases hlast
    have hcat := List.dropLast_concat_getLast hne
    have hcr : l.data.getLast hne = Char.ofNat 0x0D := by
      rw [List.getLast?_eq_getLast _ hne] at hlast
      exact Option.some.inj hlast
    unfold specTrim
    simp only
    congr 1
    conv_rhs => rw [← hcat, hcr]
    exact (rdropWhile_dropWhile_concat _ _ _ (by decide)).symm
  · rfl

theorem scanLines_spec (lines : List String) :
    ((scanLines lines).2 = false ↔ ∀ l ∈ lines, l.utf8ByteSize < MaxScanTokenSize) ∧
    ((scanLines lines).2 = false → (scanLines lines).1 = lines.map dropCR) := by
  induction lines with
  | nil => simp [scanLines]
  | cons l ls ih =>
    by_cases h : MaxScanTokenSize ≤ l.utf8ByteSize
    · simp only [scanLines, if_pos h]
      refine ⟨?_, ?_⟩
      · simp only [Bool.true_eq_false, false_iff]
        intro hall
        have := hall l (by simp)
        omega
      · intro hf
        cases hf
    · simp only [scanLines, if_neg h]
      refine ⟨?_, ?_⟩
      · rw [ih.1]
        constructor
        · intro hall x hx
          rcases List.mem_cons.mp hx with rfl | hx
          · omega
          · exact hall x hx
        · intro hall x hx
          exact hall x (by simp [hx])
      · intro hf
        rw [ih.2 hf]
        rfl

theorem scanWords_dropCR (lines : List String) :
    scanWords (lines.map dropCR) = specWords lines := by
  rw [scanWords_eq, List.map_map]
  unfold specWords
  congr 2
  funext l
  simp only [Function.comp_apply]
  rw [TrimSpace_spec, specTrim_dropCR]

/-- C17 (amended): as a function of the lines of the word list,
`LoadBIP39English` succeeds if and only if every line is shorter than 65536
bytes (the buffer of the scanner) and the lines, trimmed of white space and
with the blank ones dropped, are exactly 2048 words without a duplicate. On
success it returns these words, the index has exactly 2048 keys, which are
the words, `index[words[i]] = i` for every position `i`, and the word that
`Encode` looks up for an index `v < 2048` is mapped back to `v` by the lookup
of `Decode`. -/
theorem load_vocabulary (lines : List String) :
    ((LoadBIP39English lines).isSome = true ↔
      (∀ l ∈ lines, l.utf8ByteSize < 65536) ∧
      (specWords lines).length = 2048 ∧ (specWords lines).Nodup) ∧
    ∀ words index, LoadBIP39English lines = some (words, index) →
      words = specWords lines ∧
      IsVocabulary words index ∧
      (∀ w, index w ≠ none ↔ w ∈ words) ∧
      Set.ncard {w | index w ≠ none} = 2048 ∧
      ∀ v, v < 2048 →
        ∃ w, lookupIndices words [v] = some [w] ∧ lookupWords index [w] = .ok [(v : Int)] := by
  have hsc := scanLines_spec lines
  have hmax : MaxScanTokenSize = 65536 := rfl
  rw [hmax] at hsc
  by_cases herr : (scanLines lines).2 = true
  · have hnone : LoadBIP39English lines = none := by
      unfold LoadBIP39English
      simp only [herr, if_true]
    rw [hnone]
    refine ⟨?_, ?_⟩
    · simp only [Option.isSome_none, Bool.false_eq_true, false_iff]
      rintro ⟨hall, -⟩
      have := hsc.1.mpr hall
      rw [herr] at this
      cases this
    · intro words index h
      cases h
  · have hok : (scanLines lines).2 = false := by
      cases h : (scanLines lines).2 with
      | true => exact absurd h herr
      | false => rfl
    have hall := hsc.1.mp hok
    have htok : scanWords (scanLines lines).1 = specWords lines := by
      rw [hsc.2 hok, scanWords_dropCR]
    have hload : LoadBIP39English lines =
        if (specWords lines).length ≠ 2048 then none
        else match buildIndex (specWords lines) 0 (fun _ => none) with
          | none => none
          | some index => some (specWords lines, index) := by
      unfold LoadBIP39English
      simp only [hok, htok, Bool.false_eq_true, if_false]
    rw [hload]
    have hb := buildIndex_spec (specWords lines) 0 (fun _ => none)
    constructor
    · by_cases hlen : (specWords lines).length = 2048
      · rw [if_neg (by simp [hlen])]
        cases hbi : buildIndex (specWords lines) 0 (fun _ => none) with
        | none =>
          rw [hbi] at hb
          simp only [Option.isSome_none, Bool.false_eq_true, false_iff]
          rintro ⟨-, -, hn⟩
          have := hb.1.mpr ⟨hn, fun _ _ => rfl⟩
          simp at this
        | some index =>
          rw [hbi] at hb
          have := (hb.1.mp rfl).1
          simp only [Option.isSome_some, true_iff]
          exact ⟨hall, hlen, this⟩
      · rw [if_pos hlen]
        simp [hlen]
    · intro words index h
      split at h
      · cases h
      · rename_i hlen
        have hlen' : (specWords lines).length = 2048 := by simpa using hlen
        cases hbi : buildIndex (specWords lines) 0 (fun _ => none) with
        | none => rw [hbi] at h; cases h
        | some index' =>
          rw [hbi] at h hb
          simp only [Option.some.injEq, Prod.mk.injEq] at h
          obtain ⟨rfl, rfl⟩ := h
          have hn : (specWords lines).Nodup := (hb.1.mp rfl).1
          have hrev := buildIndex_reverseIndex _ _ hbi
          have hv : IsVocabulary (specWords lines) index' := by
            rw [hrev]; exact reverseIndex_isVocabulary _ hn hlen'
          refine ⟨rfl, hv, ?_, ?_, ?_⟩
          · intro w
            rw [hrev]
            unfold reverseIndex
            by_cases hw : w ∈ specWords lines <;> simp [hw]
          · rw [hrev, reverseIndex_keys _ hn, hlen']
          · intro v hvlt
            have h1 := lookupIndices_of_lt (specWords lines) [v]
              (by intro x hx; rw [List.mem_singleton] at hx; rw [hx, hlen']; exact hvlt)
            have h2 := lookupWords_of_lt hv [v]
              (by intro x hx; rw [List.mem_singleton] at hx; rw [hx]; exact hvlt)
            exact ⟨_, h1, h2⟩


theorem utf8ByteSize_le (cs : List Char) : (String.mk cs).utf8ByteSize ≤ 4 * cs.length := by
  rw [String.utf8ByteSize_mk]
  induction cs with
  | nil => simp
  | cons c cs ih =>
    rw [String.utf8Len_cons, List.length_cons]
    have := Char.utf8Size_le_four c
    omega

theorem utf8ByteSize_ge (cs : List Char) : cs.length ≤ (String.mk cs).utf8ByteSize := by
  rw [String.utf8ByteSize_mk]
  induction cs with
  | nil => simp
  | cons c cs ih =>
    rw [String.utf8Len_cons, List.length_cons]
    have := Char.utf8Size_pos c
    omega

theorem specTrim_demoLine (i : Nat) :
    specTrim (String.mk ([Char.ofNat 0x20, Char.ofNat 0x09] ++ List.replicate (i + 1) 'a'
      ++ [Char.ofNat 0xA0, Char.ofNat 0x0D])) = String.mk (List.replicate (i + 1) 'a') := by
  have hs : decide ((Char.ofNat 0x20).toNat ∈ specWhiteSpace) = true := by decide
  have ht : decide ((Char.ofNat 0x09).toNat ∈ specWhiteSpace) = true := by decide
  have hn : decide ((Char.ofNat 0xA0).toNat ∈ specWhiteSpace) = true := by decide
  have hc : decide ((Char.ofNat 0x0D).toNat ∈ specWhiteSpace) = true := by decide
  have ha : decide (('a' : Char).toNat ∈ specWhiteSpace) = false := by decide
  have h1 : List.dropWhile (fun c : Char => decide (c.toNat ∈ specWhiteSpace))
      ([Char.ofNat 0x20, Char.ofNat 0x09] ++ List.replicate (i + 1) 'a'
        ++ [Char.ofNat 0xA0, Char.ofNat 0x0D])
      = ((List.replicate i 'a' ++ ['a']) ++ [Char.ofNat 0xA0]) ++ [Char.ofNat 0x0D] := by
    rw [← List.replicate_succ', List.replicate_succ]
    simp only [List.cons_append, List.nil_append, List.dropWhile_cons, hs, ht, ha, if_true,
      Bool.false_eq_true, if_false, List.append_assoc]
  unfold specTrim
  simp only
  rw [h1, List.rdropWhile_concat_pos (fun c : Char => decide (c.toNat ∈ specWhiteSpace)) _ _ hc,
    List.rdropWhile_concat_pos (fun c : Char => decide (c.toNat ∈ specWhiteSpace)) _ _ hn,
    List.rdropWhile_concat_neg (fun c : Char => decide (c.toNat ∈ specWhiteSpace)) _ _
      (by decide),
    ← List.replicate_succ']

theorem specTrim_blank (cs : List Char)
    (h : ∀ c ∈ cs, decide (c.toNat ∈ specWhiteSpace) = true) :
    specTrim (String.mk cs) = "" := by
  unfold specTrim
  simp only
  rw [List.dropWhile_eq_nil_iff.mpr h]
  rfl

theorem specWords_demoLines : specWords demoLines = demoWords := by
  unfold specWords demoLines demoWords
  rw [List.map_append, List.map_map, List.filter_append]
  have hm : (specTrim ∘ fun i => String.mk
      ([Char.ofNat 0x20, Char.ofNat 0x09] ++ List.replicate (i + 1) 'a'
        ++ [Char.ofNat 0xA0, Char.ofNat 0x0D]))
      = fun i => String.mk (List.replicate (i + 1) 'a') := by
    funext i
    exact specTrim_demoLine i
  have hb1 : specTrim "" = "" := specTrim_blank [] (by simp)
  have hb2 : specTrim (String.mk [Char.ofNat 0x20, Char.ofNat 0x3000, Char.ofNat 0x0D]) = "" :=
    specTrim_blank _ (by decide)
  rw [hm, List.map_cons, List.map_cons, List.map_nil, hb1, hb2]
  have hf : List.filter (fun w : String => decide (w ≠ "")) ["", ""] = [] := by decide
  rw [hf, List.append_nil, List.filter_eq_self]
  intro w hw
  obtain ⟨i, -, rfl⟩ := List.mem_map.mp hw
  have : String.mk (List.replicate (i + 1) 'a') ≠ "" := by
    intro h
    have := congrArg String.length h
    simp at this
  simpa using this

theorem demoLines_short : ∀ l ∈ demoLines, l.utf8ByteSize < 65536 := by
  intro l hl
  unfold demoLines at hl
  rcases List.mem_append.mp hl with h | h
  · obtain ⟨i, hi, rfl⟩ := List.mem_map.mp h
    have hi' := List.mem_range.mp hi
    have := utf8ByteSize_le ([Char.ofNat 0x20, Char.ofNat 0x09] ++ List.replicate (i + 1) 'a'
      ++ [Char.ofNat 0xA0, Char.ofNat 0x0D])
    simp only [List.length_append, List.length_cons, List.length_nil,
      List.length_replicate] at this
    omega
  · simp only [List.mem_cons, List.mem_singleton, List.mem_nil_iff, or_false] at h
    rcases h with rfl | rfl
    · decide
    · have := utf8ByteSize_le [Char.ofNat 0x20, Char.ofNat 0x3000, Char.ofNat 0x0D]
      simp only [List.length_cons, List.length_nil] at this
      omega

/-- Witness of C17: on a word list whose 2048 lines carry leading blanks and
tabs, a trailing no-break space and a carriage return, followed by an empty
line and a line of white space only, the loader returns the 2048 trimmed words
and an index that maps every word back to its position. -/
theorem load_vocabulary_witness :
    (∀ l ∈ demoLines, l.utf8ByteSize < 65536) ∧
    specWords demoLines = demoWords ∧
    demoLines ≠ demoWords ∧
    ∃ index, LoadBIP39English demoLines = some (demoWords, index) ∧
      IsVocabulary demoWords index := by
  obtain ⟨h1, h2⟩ := load_vocabulary demoLines
  have hs := h1.mpr ⟨demoLines_short,
    by rw [specWords_demoLines]; exact demoWords_length,
    by rw [specWords_demoLines]; exact demoWords_nodup⟩
  refine ⟨demoLines_short, specWords_demoLines, ?_, ?_⟩
  · intro h
    have hl := congrArg List.length h
    rw [demoWords_length] at hl
    unfold demoLines at hl
    simp at hl
  · cases hl : LoadBIP39English demoLines with
    | none => rw [hl] at hs; cases hs
    | some p =>
      obtain ⟨words, index⟩ := p
      obtain ⟨hw, hv, -⟩ := h2 words index hl
      rw [specWords_demoLines] at hw
      subst hw
      exact ⟨index, rfl, hv⟩

theorem blank_line_of_length (lines : List String) (n : Nat) (hn : MaxScanTokenSize ≤ n) :
    specWords (lines ++ [String.mk (List.replicate n (Char.ofNat 0x20))]) = specWords lines ∧
    (scanLines (lines ++ [String.mk (List.replicate n (Char.ofNat 0x20))])).2 = true := by
  have hblank : specTrim (String.mk (List.replicate n (Char.ofNat 0x20))) = "" := by
    apply specTrim_blank
    intro c hc
    rw [List.eq_of_mem_replicate hc]
    decide
  constructor
  · unfold specWords
    rw [List.map_append, List.filter_append, List.map_cons, List.map_nil, hblank]
    have hf : List.filter (fun w : String => decide (w ≠ "")) [""] = [] := by decide
    rw [hf, List.append_nil]
  · cases h : (scanLines (lines ++ [String.mk (List.replicate n (Char.ofNat 0x20))])).2 with
    | true => rfl
    | false =>
      have hall := (scanLines_spec _).1.mp h
      have h1 := hall (String.mk (List.replicate n (Char.ofNat 0x20))) (by simp)
      have h2 := utf8ByteSize_ge (List.replicate n (Char.ofNat 0x20))
      rw [List.length_replicate] at h2
      omega

/-- Counterexample to C17 as stated: 2048 good lines followed by one line of
65536 blanks. The trimmed non-empty lines are exactly 2048 distinct words,
and yet the scanner stops with an error and the loader fails. -/
theorem load_fails_on_long_line :
    (specWords (demoLines ++ [String.mk (List.replicate 65536 (Char.ofNat 0x20))])).length = 2048 ∧
    (specWords (demoLines ++ [String.mk (List.replicate 65536 (Char.ofNat 0x20))])).Nodup ∧
    (scanLines (demoLines ++ [String.mk (List.replicate 65536 (Char.ofNat 0x20))])).2 = true ∧
    LoadBIP39English (demoLines ++ [String.mk (List.replicate 65536 (Char.ofNat 0x20))]) = none := by
  obtain ⟨hw, herr⟩ := blank_line_of_length demoLines 65536 (Nat.le_of_eq rfl)
  rw [specWords_demoLines] at hw
  refine ⟨by rw [hw]; exact demoWords_length, by rw [hw]; exact demoWords_nodup, herr, ?_⟩
  unfold LoadBIP39English
  simp only [herr, if_true]

/-! ## The packer against its reference definition -/

theorem mod_div_mod (x a k b : Nat) (h : k + b ≤ a) :
    (x % 2 ^ a / 2 ^ k) % 2 ^ b = (x / 2 ^ k) % 2 ^ b := by
  have e : (2 : Nat) ^ a = 2 ^ k * 2 ^ (a - k) := by
    rw [← Nat.pow_add]; congr 1; omega
  rw [e, Nat.mod_mul_right_div_self]
  apply Nat.mod_mod_of_dvd
  exact Nat.pow_dvd_pow 2 (by omega)

/-- Digit `i` of a list of digits below `2 ^ w`, read off its value. -/
theorem bval_digit (w : Nat) (xs : List Nat) (hx : ∀ x ∈ xs, x < 2 ^ w) :
    ∀ i x, xs.get? i = some x → x = (bval w xs / 2 ^ (w * (xs.length - 1 - i))) % 2 ^ w := by
  induction xs using List.reverseRecOn with
  | nil => intro i x h; simp at h
  | append_singleton xs y ih =>
    intro i x h
    have hy : y < 2 ^ w := hx y (by simp)
    rw [bval_snoc]
    by_cases hi : i < xs.length
    · have hg : xs.get? i = some x := by
        rw [List.get?_eq_getElem?] at h ⊢
        rwa [List.getElem?_append_left hi] at h
      have := ih (fun a ha => hx a (by simp [ha])) i x hg
      rw [this]
      have e : w * ((xs ++ [y]).length - 1 - i) = w + w * (xs.length - 1 - i) := by
        have e0 : (xs ++ [y]).length - 1 - i = (xs.length - 1 - i) + 1 := by
          simp only [List.length_append, List.length_singleton]
          omega
        rw [e0, Nat.mul_succ, Nat.add_comm]
      have e2 : (bval w xs * 2 ^ w + y) / 2 ^ w = bval w xs := by
        rw [Nat.mul_comm, Nat.mul_add_div (Nat.two_pow_pos w), Nat.div_eq_of_lt hy, Nat.add_zero]
      rw [e, Nat.pow_add, ← Nat.div_div_eq_div_mul, e2]
    · have hlen : i = xs.length := by
        have := List.get?_eq_some.mp h
        obtain ⟨hlt, -⟩ := this
        simp only [List.length_append, List.length_singleton] at hlt
        omega
      subst hlen
      have hg : (xs ++ [y]).get? xs.length = some y := by
        rw [List.get?_eq_getElem?]
        simp
      rw [hg] at h
      cases h
      have e : ∀ z : Nat, w * ((xs ++ [z]).length - 1 - xs.length) = 0 := by
        intro z
        simp
      rw [e, Nat.pow_zero, Nat.div_one, Nat.add_comm, Nat.add_mul_mod_self_right,
        Nat.mod_eq_of_lt hy]

theorem byte_of_value (blob : List Byte) (k : Nat) (b : Byte) (h : blob.get? k = some b) :
    b.val = (bytesVal blob / 2 ^ (8 * (blob.length - 1 - k))) % 2 ^ 8 := by
  have hd := bval_digit 8 (blob.map Fin.val)
    (by intro x hx; rcases List.mem_map.mp hx with ⟨c, _, rfl⟩; exact c.isLt) k b.val
    (by rw [List.get?_eq_getElem?, List.getElem?_map, ← List.get?_eq_getElem?, h]; rfl)
  rw [List.length_map] at hd
  exact hd

/-- Bit `j` of the zero-extended stream, read off the value of the blob
shifted left by `p` bits. -/
theorem streamBit_value (blob : List Byte) (p j : Nat) (hj : j < 8 * blob.length + p) :
    streamBit blob j
      = (bytesVal blob * 2 ^ p / 2 ^ (8 * blob.length + p - 1 - j)) % 2 := by
  unfold streamBit
  by_cases hlt : j < 8 * blob.length
  · have hk : j / 8 < blob.length := by omega
    have hg : blob.get? (j / 8) = some (blob.get ⟨j / 8, hk⟩) := List.get?_eq_get hk
    rw [hg]
    simp only
    rw [byte_of_value blob (j / 8) _ hg, Nat.shiftRight_eq_div_pow]
    have h1 := mod_div_mod (bytesVal blob / 2 ^ (8 * (blob.length - 1 - j / 8))) 8 (7 - j % 8) 1
      (by omega)
    rw [Nat.pow_one] at h1
    rw [h1, Nat.div_div_eq_div_mul, ← Nat.pow_add]
    have e1 : 8 * (blob.length - 1 - j / 8) + (7 - j % 8) = 8 * blob.length - 1 - j := by omega
    have e2 : 8 * blob.length + p - 1 - j = p + (8 * blob.length - 1 - j) := by omega
    rw [e1, e2, Nat.pow_add, Nat.mul_comm (bytesVal blob),
      Nat.mul_div_mul_left _ _ (Nat.two_pow_pos p)]
  · have hg : blob.get? (j / 8) = none := by
      rw [List.get?_eq_none]; omega
    rw [hg]
    simp only
    generalize he0 : 8 * blob.length + p - 1 - j = e0
    obtain ⟨q, hq⟩ : ∃ q, p = e0 + (q + 1) := ⟨p - e0 - 1, by omega⟩
    rw [hq, Nat.pow_add, ← Nat.mul_assoc, Nat.mul_comm _ (2 ^ e0), Nat.mul_assoc,
      Nat.mul_div_cancel_left _ (Nat.two_pow_pos _), Nat.pow_succ, ← Nat.mul_assoc,
      Nat.mul_mod_left]

/-- A run of `k` bits of the zero-extended stream, read off the value of the
blob shifted left by `p` bits. -/
theorem bitsValue_value (blob : List Byte) (p start : Nat) :
    ∀ k, start + k ≤ 8 * blob.length + p →
      bitsValue blob start k
        = (bytesVal blob * 2 ^ p / 2 ^ (8 * blob.length + p - start - k)) % 2 ^ k := by
  intro k
  induction k with
  | zero => intro _; simp [bitsValue, Nat.mod_one]
  | succ k ih =>
    intro h
    rw [bitsValue, ih (by omega), streamBit_value blob p (start + k) (by omega)]
    have e1 : 8 * blob.length + p - start - k = (8 * blob.length + p - start - (k + 1)) + 1 := by
      omega
    have e2 : 8 * blob.length + p - 1 - (start + k) = 8 * blob.length + p - start - (k + 1) := by
      omega
    rw [e1, e2, Nat.pow_succ, ← Nat.div_div_eq_div_mul, Nat.pow_succ, Nat.mul_comm (2 ^ k) 2,
      Nat.mod_mul]
    omega

/-- C19: for every byte sequence, of any length, `packToIndices` returns the
reference list: `ceil(8n/11)` indices, the `i`-th being the integer formed by
the bits `[11i, 11i + 11)` of the big-endian bitstream of the blob extended
with zero bits. The model of `packToIndices` keeps the 64-bit accumulator
that is shifted without being masked and wraps modulo `2 ^ 64`. -/
theorem packToIndices_eq_packRef (blob : List Byte) :
    packToIndices blob = packRef blob ∧
    (packToIndices blob).length = (8 * blob.length + 10) / 11 ∧
    ∀ i, i < (packToIndices blob).length →
      (packToIndices blob).get? i = some (bitsValue blob (11 * i) 11) := by
  obtain ⟨hlen, hval, hdig⟩ := packToIndices_spec blob
  have hm := padBits_count _ _ hlen
  have hget : ∀ i, i < (packToIndices blob).length →
      (packToIndices blob).get? i = some (bitsValue blob (11 * i) 11) := by
    intro i hi
    rw [List.get?_eq_get hi]
    congr 1
    have hd := bval_digit 11 (packToIndices blob) hdig i _ (List.get?_eq_get hi)
    rw [hd, hval, bitsValue_value blob (padBits blob.length) (11 * i) 11 (by omega)]
    congr 3
    omega
  refine ⟨?_, hm, hget⟩
  apply List.ext_get?
  intro i
  unfold packRef
  by_cases hi : i < (packToIndices blob).length
  · rw [hget i hi, List.get?_eq_getElem?, List.getElem?_map, List.getElem?_range (by omega)]
    rfl
  · rw [List.get?_eq_none.mpr (by omega), List.get?_eq_none.mpr (by simp; omega)]

/-! ## Canonical word sequences -/

theorem bval_dropLast (w : Nat) (xs : List Nat) (hx : ∀ x ∈ xs, x < 2 ^ w) :
    bval w xs.dropLast = bval w xs / 2 ^ w := by
  rcases List.eq_nil_or_concat xs with h | ⟨xs', x, rfl⟩
  · subst h; simp [bval]
  · simp only [List.concat_eq_append] at hx ⊢
    have hlt : x < 2 ^ w := hx x (by simp)
    rw [List.dropLast_concat, bval_snoc, Nat.mul_comm, Nat.mul_add_div (Nat.two_pow_pos w),
      Nat.div_eq_of_lt hlt, Nat.add_zero]

/-- Re-packing the unpacked bytes of digits below 2048: the same number of
digits, the same value up to the leftover bits, which are cleared. -/
theorem pack_unpack_spec (I : List Nat) (hI : ∀ x ∈ I, x < 2048) :
    (packToIndices (unpackFromIndices (I.map Int.ofNat)).1).length = I.length ∧
    bval 11 (packToIndices (unpackFromIndices (I.map Int.ofNat)).1)
        + I.getLastD 0 % 2 ^ ((11 * I.length) % 8) = bval 11 I ∧
    bval 11 (packToIndices (unpackFromIndices (I.map Int.ofNat)).1) / 2 ^ 11
      = bval 11 I / 2 ^ 11 := by
  have hc := unpack_foldl_count (I.map Int.ofNat) { acc := 0, accN := 0, out := [] } (by decide)
  have hv := unpack_foldl_value I hI [] { acc := 0, accN := 0, out := [] }
    (by decide) (by decide) rfl
  rw [unpack_fst]
  generalize (I.map Int.ofNat).foldl unpackStep { acc := 0, accN := 0, out := [] } = s at hc hv ⊢
  simp only [List.length_map, List.length_nil, List.nil_append] at hc hv
  obtain ⟨hlen, hval, -⟩ := packToIndices_spec s.out
  have hr : s.accN = (11 * I.length) % 8 := by omega
  have hp : padBits s.out.length = s.accN := by
    unfold padBits
    omega
  rw [hp] at hlen hval
  have hacc : s.acc = I.getLastD 0 % 2 ^ s.accN := by
    rw [← bval_mod_last I s.accN (by omega), hv.2, Nat.mul_add_mod_of_lt hv.1]
  have hsum : bval 11 (packToIndices s.out) + I.getLastD 0 % 2 ^ s.accN = bval 11 I := by
    rw [hval, ← hacc, hv.2]
  refine ⟨by omega, by rw [← hr]; exact hsum, ?_⟩
  have e : (2 : Nat) ^ 11 = 2 ^ s.accN * 2 ^ (11 - s.accN) := by
    rw [← Nat.pow_add]; congr 1; omega
  have h1 : bytesVal s.out * 2 ^ s.accN / 2 ^ s.accN = bytesVal s.out :=
    Nat.mul_div_cancel _ (Nat.two_pow_pos _)
  have h2 : (bytesVal s.out * 2 ^ s.accN + s.acc) / 2 ^ s.accN = bytesVal s.out := by
    rw [Nat.mul_comm, Nat.mul_add_div (Nat.two_pow_pos _), Nat.div_eq_of_lt hv.1, Nat.add_zero]
  rw [hval, hv.2, e, ← Nat.div_div_eq_div_mul, ← Nat.div_div_eq_div_mul, h1, h2]

theorem pack_unpack_eq_iff (I : List Nat) (hI : ∀ x ∈ I, x < 2048) :
    packToIndices (unpackFromIndices (I.map Int.ofNat)).1 = I ↔
      (unpackFromIndices (I.map Int.ofNat)).2 = true := by
  obtain ⟨hlen, hsum, -⟩ := pack_unpack_spec I hI
  have hpad := unpack_padOK I hI
  have hd := (packToIndices_spec (unpackFromIndices (I.map Int.ofNat)).1).2.2
  constructor
  · intro h
    rw [h] at hsum
    have h0 : I.getLastD 0 % 2 ^ ((11 * I.length) % 8) = 0 := by omega
    cases hb : (unpackFromIndices (I.map Int.ofNat)).2 with
    | true => rfl
    | false => exact absurd h0 (hpad.mp hb).2
  · intro h
    have h0 : I.getLastD 0 % 2 ^ ((11 * I.length) % 8) = 0 := by
      by_cases hr : 0 < (11 * I.length) % 8
      · by_contra hne
        have := hpad.mpr ⟨hr, hne⟩
        rw [h] at this
        cases this
      · have : (11 * I.length) % 8 = 0 := by omega
        rw [this, Nat.pow_zero, Nat.mod_one]
    rw [h0, Nat.add_zero] at hsum
    exact bval_inj 11 _ _ hlen hd hI hsum

theorem pack_unpack_dropLast (I : List Nat) (hI : ∀ x ∈ I, x < 2048) :
    (packToIndices (unpackFromIndices (I.map Int.ofNat)).1).dropLast = I.dropLast := by
  obtain ⟨hlen, -, hdiv⟩ := pack_unpack_spec I hI
  have hd := (packToIndices_spec (unpackFromIndices (I.map Int.ofNat)).1).2.2
  apply bval_inj 11 _ _ (by simp [hlen])
    (fun x hx => hd x (List.mem_of_mem_dropLast hx))
    (fun x hx => hI x (List.mem_of_mem_dropLast hx))
  rw [bval_dropLast 11 _ hd, bval_dropLast 11 _ hI, hdiv]

theorem words_of_vocabulary {words : List String} {index : String → Option Int}
    (hv : IsVocabulary words index) (ws : List String) (hws : ∀ w ∈ ws, w ∈ words) :
    ∃ I : List Nat, (∀ x ∈ I, x < 2048) ∧ ws = I.map (fun v => words.getD v "") := by
  induction ws with
  | nil => exact ⟨[], by simp, rfl⟩
  | cons w ws ih =>
    obtain ⟨I, hI, hws'⟩ := ih (fun x hx => hws x (by simp [hx]))
    obtain ⟨i, hi⟩ := List.mem_iff_get.mp (hws w (by simp))
    refine ⟨i.val :: I, ?_, ?_⟩
    · intro x hx
      rcases List.mem_cons.mp hx with rfl | hx
      · rw [← hv.size]; exact i.isLt
      · exact hI x hx
    · rw [List.map_cons, ← hws', List.getD_eq_getElem _ _ i.isLt]
      congr 1
      exact hi.symm

theorem wordsOf_inj {words : List String} {index : String → Option Int}
    (hv : IsVocabulary words index) (X Y : List Nat) (hX : ∀ x ∈ X, x < 2048)
    (hY : ∀ x ∈ Y, x < 2048)
    (h : X.map (fun v => words.getD v "") = Y.map (fun v => words.getD v "")) : X = Y := by
  have h1 := lookupWords_of_lt hv X hX
  have h2 := lookupWords_of_lt hv Y hY
  rw [h, h2] at h1
  have h3 : Y.map Int.ofNat = X.map Int.ofNat := Except.ok.inj h1
  have hinj : Function.Injective (List.map Int.ofNat) :=
    List.map_injective_iff.mpr (fun a b hab => Int.ofNat.inj hab)
  exact (hinj h3).symm

/-- C21 (amended): for every list `I` of indices in `[0, 2047]`, packing
the bytes that the unpacker returns for `I` gives `I` back if and only if the
unpacker reports clean padding; the re-packed list always has the length of
`I` and agrees with `I` except possibly in the last index. With a vocabulary,
for every list of vocabulary words and every decoder, raw-encoding the bytes
of its raw decoding returns the same words exactly when the padding is clean;
when the decoder does not reject the padding (`StrictPad = false`, or the
padding is clean) the re-encoded list has the same length and differs at most
in the last word; when it rejects the padding, `Decode` returns no data and
the re-encoding is the empty list. -/
theorem canonical_reencode :
    (∀ I : List Nat, (∀ x ∈ I, x < 2048) →
      (packToIndices (unpackFromIndices (I.map Int.ofNat)).1 = I ↔
        (unpackFromIndices (I.map Int.ofNat)).2 = true) ∧
      (packToIndices (unpackFromIndices (I.map Int.ofNat)).1).length = I.length ∧
      (packToIndices (unpackFromIndices (I.map Int.ofNat)).1).dropLast = I.dropLast) ∧
    (∀ (words : List String) (d : Decoder) (ws : List String),
      IsVocabulary words d.Index → (∀ w ∈ ws, w ∈ words) →
      ∃ I ws', lookupWords d.Index ws = .ok I ∧
        Encode { Words := words, Framed := false } (Decode d ws DecodeRaw).1 = some ws' ∧
        (ws' = ws ↔ (unpackFromIndices I).2 = true) ∧
        ((d.StrictPad = false ∨ (unpackFromIndices I).2 = true) →
          ws'.length = ws.length ∧ ws'.dropLast = ws.dropLast) ∧
        (d.StrictPad = true → (unpackFromIndices I).2 = false → ws' = [])) := by
  constructor
  · intro I hI
    exact ⟨pack_unpack_eq_iff I hI, (pack_unpack_spec I hI).1, pack_unpack_dropLast I hI⟩
  · intro words d ws hv hws
    obtain ⟨I, hI, rfl⟩ := words_of_vocabulary hv ws hws
    have hl := lookupWords_of_lt hv I hI
    have hiff := pack_unpack_eq_iff I hI
    have hblob : ∀ X : List Byte, encodedWords words false X
        = (packToIndices X).map (fun v => words.getD v "") := by
      intro X
      simp [encodedWords, encodeBlob]
    refine ⟨I.map Int.ofNat, _, hl, Encode_eq _ hv.size _, ?_, ?_, ?_⟩
    · dsimp only
      rw [hblob, Decode_of_lookup d _ _ _ hl]
      by_cases hp : d.StrictPad = false ∨ (unpackFromIndices (I.map Int.ofNat)).2 = true
      · rw [decodeIndices_raw d _ hp, ← hiff]
        constructor
        · intro h
          exact wordsOf_inj hv _ _ (packToIndices_spec _).2.2 hI h
        · intro h
          simp only at h
          rw [h]
      · have hS : d.StrictPad = true := by
          cases hs : d.StrictPad with
          | true => rfl
          | false => exact absurd (Or.inl hs) hp
        have hb : (unpackFromIndices (I.map Int.ofNat)).2 = false := by
          cases hs : (unpackFromIndices (I.map Int.ofNat)).2 with
          | false => rfl
          | true => exact absurd (Or.inr hs) hp
        have hdec : decodeIndices d (I.map Int.ofNat) DecodeRaw = ([], some Err.BadPadding) := by
          unfold decodeIndices
          simp [hS, hb]
        rw [hdec, hb]
        simp only [Bool.false_eq_true, iff_false]
        intro h
        have hnil : packToIndices ([] : List Byte) = [] := rfl
        rw [hnil, List.map_nil] at h
        have hI0 : I = [] := by
          cases I with
          | nil => rfl
          | cons a t => simp at h
        subst hI0
        have : (unpackFromIndices (([] : List Nat).map Int.ofNat)).2 = true := rfl
        rw [this] at hb
        cases hb
    · intro hp
      dsimp only
      rw [hblob, Decode_of_lookup d _ _ _ hl, decodeIndices_raw d _ hp]
      simp only
      refine ⟨?_, ?_⟩
      · rw [List.length_map, List.length_map]
        exact (pack_unpack_spec I hI).1
      · rw [← List.map_dropLast, ← List.map_dropLast, pack_unpack_dropLast I hI]
    · intro hS hb
      dsimp only
      have hdec : decodeIndices d (I.map Int.ofNat) DecodeRaw = ([], some Err.BadPadding) := by
        unfold decodeIndices
        simp [hS, hb]
      rw [hblob, Decode_of_lookup d _ _ _ hl, hdec]
      rfl

/-- Witness of C21 (amended): the single word of index 1361 has leftover bits `001`;
its raw decoding re-encodes to one word that is not the same word. -/
theorem canonical_reencode_witness :
    IsVocabulary demoWords (NewDecoder demoIndex).Index ∧
    (∀ w ∈ [demoWords.getD 1361 ""], w ∈ demoWords) ∧
    ∃ ws', Encode { Words := demoWords, Framed := false }
        (Decode (NewDecoder demoIndex) [demoWords.getD 1361 ""] DecodeRaw).1 = some ws' ∧
      ws' ≠ [demoWords.getD 1361 ""] ∧ ws'.length = 1 := by
  have hmem : ∀ w ∈ [demoWords.getD 1361 ""], w ∈ demoWords := by
    intro w hw
    rw [List.mem_singleton] at hw
    have hlt : 1361 < demoWords.length := by rw [demoWords_length]; decide
    rw [hw, List.getD_eq_getElem _ _ hlt]
    exact List.getElem_mem _
  obtain ⟨I, ws', hl, henc, hiff, hlen, -⟩ :=
    canonical_reencode.2 demoWords (NewDecoder demoIndex) [demoWords.getD 1361 ""]
      demo_isVocabulary hmem
  have hl' : lookupWords demoIndex [demoWords.getD 1361 ""] = .ok [1361] :=
    lookupWords_of_lt demo_isVocabulary [1361] (by decide)
  have hI : I = [1361] := by
    have h : lookupWords demoIndex [demoWords.getD 1361 ""] = .ok I := hl
    rw [hl'] at h
    exact (Except.ok.inj h).symm
  subst hI
  have hpad : (unpackFromIndices [1361]).2 = false := by
    set_option maxRecDepth 100000 in decide
  refine ⟨demo_isVocabulary, hmem, ws', henc, ?_, (hlen (Or.inl rfl)).1⟩
  intro h
  have := hiff.mp h
  rw [hpad] at this
  cases this

/-- C21 (as stated) fails for a decoder with `StrictPad = true`: the single
vocabulary word of index 1361 has leftover bits `001`; its raw decoding is
no data with `ErrBadPadding`, and the raw encoding of no data is the empty
word list, which has not the length of the one-word input. -/
theorem strict_reencode_loses_length :
    (∀ w ∈ [demoWords.getD 1361 ""], w ∈ demoWords) ∧
    Decode { Index := demoIndex, MaxLen := 268435456, AllowPartial := true, StrictPad := true }
      [demoWords.getD 1361 ""] DecodeRaw = ([], some Err.BadPadding) ∧
    Encode { Words := demoWords, Framed := false }
      (Decode { Index := demoIndex, MaxLen := 268435456, AllowPartial := true, StrictPad := true }
        [demoWords.getD 1361 ""] DecodeRaw).1 = some [] ∧
    ([] : List String).length ≠ [demoWords.getD 1361 ""].length := by
  have hmem : ∀ w ∈ [demoWords.getD 1361 ""], w ∈ demoWords := by
    intro w hw
    rw [List.mem_singleton] at hw
    have hlt : 1361 < demoWords.length := by rw [demoWords_length]; decide
    rw [hw, List.getD_eq_getElem _ _ hlt]
    exact List.getElem_mem _
  have hl : lookupWords demoIndex [demoWords.getD 1361 ""] = .ok [1361] :=
    lookupWords_of_lt demo_isVocabulary [1361] (by decide)
  have hdec : Decode
      { Index := demoIndex, MaxLen := 268435456, AllowPartial := true, StrictPad := true }
      [demoWords.getD 1361 ""] DecodeRaw = ([], some Err.BadPadding) := by
    rw [Decode_of_lookup _ _ _ _ hl]
    set_option maxRecDepth 100000 in decide
  refine ⟨hmem, hdec, ?_, by simp⟩
  rw [hdec, Encode_eq _ demoWords_length]
  rfl

end Wordenc
